import Mathlib

/-!
Formal model of the core of the `fastapi-mongo-admin` repository.

The development shallowly embeds the Python code of
`fastapi_mongo_admin/pagination.py`, `fastapi_mongo_admin/utils.py`
(`convert_object_ids_in_query`), `fastapi_mongo_admin/services.py`
(`CollectionService.list_documents_optimized`,
`CollectionService.search_documents_optimized`),
`fastapi_mongo_admin/schema.py` (`infer_schema`) and the schema-source
priority chain of `fastapi_mongo_admin/router.py`
(`get_collection_schema`).

BSON/JSON documents are modelled by the inductive type `Value`; a MongoDB
document or filter is an association list `List (String × Value)` in
insertion order, mirroring a Python `dict`.  The MongoDB store is modelled
at the interface boundary used by the code: `find(filter, sort, limit)`
filters the collection list and stable-sorts it by the single requested
sort key (the code requests exactly one sort key), ties keeping the
collection order, which is one of the orders MongoDB may return for a
non-unique sort key.  Python exceptions are modelled with `Except PyErr`.
The `base64` / UTF-8 / `json` standard-library round trip used by the
cursor codec is implemented executably below.
-/

/-- A BSON/JSON value as manipulated by the Python code: `None`, `bool`,
`int`, `str`, `bson.ObjectId` (carrying its 24-hex-char string form),
`list` and `dict` (association list in insertion order).  Floating-point
values are outside the model. -/
inductive Value where
  | vnull
  | vbool (b : Bool)
  | vint (n : Int)
  | vstr (s : String)
  | oid (s : String)
  | vlist (xs : List Value)
  | vdict (xs : List (String × Value))

/-- A MongoDB document (a Python dict), in insertion order. -/
abbrev Doc := List (String × Value)

mutual

/-- Structural equality of values, modelling Python `==` on the
corresponding Python values (MongoDB equality-match semantics for the
scalar and exact-document cases used by the code). -/
def vEq : Value → Value → Bool
  | .vnull, .vnull => true
  | .vbool a, .vbool b => a == b
  | .vint a, .vint b => a == b
  | .vstr a, .vstr b => a == b
  | .oid a, .oid b => a == b
  | .vlist xs, .vlist ys => vEqList xs ys
  | .vdict xs, .vdict ys => vEqDict xs ys
  | _, _ => false

/-- Elementwise equality of value lists. -/
def vEqList : List Value → List Value → Bool
  | [], [] => true
  | a :: as, b :: bs => vEq a b && vEqList as bs
  | _, _ => false

/-- Entrywise equality of dicts (insertion order sensitive; the Python
dicts built by this code are compared only against structurally equal
ones). -/
def vEqDict : List (String × Value) → List (String × Value) → Bool
  | [], [] => true
  | (k, a) :: as, (l, b) :: bs => k == l && vEq a b && vEqDict as bs
  | _, _ => false

end

/-- Python truthiness of a value: `None`, `False`, `0`, `""`, `[]` and
`{}` are falsy, everything else is truthy (used for `if last_doc:`). -/
def truthy : Value → Bool
  | .vnull => false
  | .vbool b => b
  | .vint n => n != 0
  | .vstr s => s.data != []
  | .oid _ => true
  | .vlist xs => !xs.isEmpty
  | .vdict xs => !xs.isEmpty

/-- BSON type rank for cross-type comparisons, following the MongoDB
type bracket order restricted to the types in the model:
Null < Numbers < String < Object < Array < ObjectId < Boolean. -/
def vRank : Value → Nat
  | .vnull => 0
  | .vint _ => 1
  | .vstr _ => 2
  | .vdict _ => 3
  | .vlist _ => 4
  | .oid _ => 5
  | .vbool _ => 6

mutual

/-- Total comparison of values modelling the MongoDB sort order: first by
type rank, then within a type (ints numerically, strings and ObjectIds
by their character sequence, composites lexicographically). -/
def vCmp : Value → Value → Ordering
  | a, b =>
    match compare (vRank a) (vRank b) with
    | .lt => .lt
    | .gt => .gt
    | .eq =>
      match a, b with
      | .vnull, .vnull => .eq
      | .vbool x, .vbool y => compare x y
      | .vint x, .vint y => compare x y
      | .vstr x, .vstr y => compare x.data y.data
      | .oid x, .oid y => compare x.data y.data
      | .vlist xs, .vlist ys => vCmpList xs ys
      | .vdict xs, .vdict ys => vCmpDict xs ys
      | _, _ => .eq

/-- Lexicographic comparison of value lists. -/
def vCmpList : List Value → List Value → Ordering
  | [], [] => .eq
  | [], _ :: _ => .lt
  | _ :: _, [] => .gt
  | a :: as, b :: bs =>
    match vCmp a b with
    | .lt => .lt
    | .gt => .gt
    | .eq => vCmpList as bs

/-- Lexicographic comparison of dict entry lists. -/
def vCmpDict : List (String × Value) → List (String × Value) → Ordering
  | [], [] => .eq
  | [], _ :: _ => .lt
  | _ :: _, [] => .gt
  | (k, a) :: as, (l, b) :: bs =>
    match compare k.data l.data with
    | .lt => .lt
    | .gt => .gt
    | .eq =>
      match vCmp a b with
      | .lt => .lt
      | .gt => .gt
      | .eq => vCmpDict as bs

end

/-- Decimal digit characters of a natural number, most significant first
(helper with explicit fuel; `natDec` supplies enough fuel). -/
def natDecAux : Nat → Nat → List Char
  | 0, _ => []
  | fuel + 1, n =>
    if n < 10 then [Char.ofNat (48 + n)]
    else natDecAux fuel (n / 10) ++ [Char.ofNat (48 + n % 10)]

/-- Decimal rendering of a natural number, as Python `str`/`json.dumps`
render a non-negative `int`. -/
def natDec (n : Nat) : List Char := natDecAux (n + 1) n

/-- Decimal rendering of an integer, as Python renders an `int`. -/
def intDec (n : Int) : List Char :=
  if n < 0 then '-' :: natDec n.natAbs else natDec n.natAbs

/-- Concatenate a list of character lists with a separator. -/
def joinSep (sep : List Char) : List (List Char) → List Char
  | [] => []
  | [x] => x
  | x :: y :: rest => x ++ sep ++ joinSep sep (y :: rest)

mutual

/-- Python `repr` of a value, simplified: string escaping inside `repr`
is not modelled (no claim depends on the exact rendering, only on it
being a fixed function; see `pyStr`). -/
def pyRepr : Value → List Char
  | .vnull => "None".data
  | .vbool true => "True".data
  | .vbool false => "False".data
  | .vint n => intDec n
  | .vstr s => '\'' :: s.data ++ ['\'']
  | .oid s => "ObjectId('".data ++ s.data ++ "')".data
  | .vlist xs => '[' :: joinSep ", ".data (pyReprList xs) ++ [']']
  | .vdict es => '{' :: joinSep ", ".data (pyReprDict es) ++ ['}']

/-- Renderings of the elements of a list. -/
def pyReprList : List Value → List (List Char)
  | [] => []
  | v :: rest => pyRepr v :: pyReprList rest

/-- Renderings of the entries of a dict. -/
def pyReprDict : List (String × Value) → List (List Char)
  | [] => []
  | (k, v) :: rest => ('\'' :: k.data ++ "': ".data ++ pyRepr v) :: pyReprDict rest

end

/-- Python `str()` of a value: the string itself for `str`, the 24-hex
string for `ObjectId`, `repr` otherwise. -/
def pyStr : Value → String
  | .vstr s => s
  | .oid s => s
  | v => String.mk (pyRepr v)

mutual

/-- A value is JSON-serializable (Python `json.dumps` succeeds) exactly
when it contains no `ObjectId`. -/
def jsonSerializable : Value → Bool
  | .vnull => true
  | .vbool _ => true
  | .vint _ => true
  | .vstr _ => true
  | .oid _ => false
  | .vlist xs => jsonSerializableList xs
  | .vdict es => jsonSerializableDict es

/-- Serializability of every element of a list. -/
def jsonSerializableList : List Value → Bool
  | [] => true
  | v :: rest => jsonSerializable v && jsonSerializableList rest

/-- Serializability of every entry value of a dict. -/
def jsonSerializableDict : List (String × Value) → Bool
  | [] => true
  | (_, v) :: rest => jsonSerializable v && jsonSerializableDict rest

end

/-- Lowercase hexadecimal digit character. -/
def hexDigitL (n : Nat) : Char :=
  if n < 10 then Char.ofNat (48 + n) else Char.ofNat (87 + n)

/-- Four-hex-digit rendering of a code unit, as in a JSON escape. -/
def hex4 (n : Nat) : List Char :=
  [hexDigitL (n / 4096 % 16), hexDigitL (n / 256 % 16),
   hexDigitL (n / 16 % 16), hexDigitL (n % 16)]

/-- JSON escape of one character, as CPython `json.dumps` with its default
`ensure_ascii=True` renders it: printable ASCII other than quote and
backslash is literal, the short escapes cover backspace, tab, newline,
form feed and carriage return, and every other character becomes one or
two (surrogate-pair) lowercase hex escapes. -/
def escChar (c : Char) : List Char :=
  if c = '"' then ['\\', '"']
  else if c = '\\' then ['\\', '\\']
  else if c.toNat = 8 then ['\\', 'b']
  else if c.toNat = 9 then ['\\', 't']
  else if c.toNat = 10 then ['\\', 'n']
  else if c.toNat = 12 then ['\\', 'f']
  else if c.toNat = 13 then ['\\', 'r']
  else if c.toNat < 32 || 126 < c.toNat then
    if c.toNat < 65536 then '\\' :: 'u' :: hex4 c.toNat
    else
      '\\' :: 'u' :: hex4 (55296 + (c.toNat - 65536) / 1024) ++
      ('\\' :: 'u' :: hex4 (56320 + (c.toNat - 65536) % 1024))
  else [c]

/-- JSON escaping of a character sequence. -/
def escStr : List Char → List Char
  | [] => []
  | c :: rest => escChar c ++ escStr rest

mutual

/-- CPython `json.dumps` rendering of a serializable value with default
separators.  The `ObjectId` case is unreachable behind the
`jsonSerializable` guard (Python raises `TypeError` there). -/
def dumpsV : Value → List Char
  | .vnull => "null".data
  | .vbool true => "true".data
  | .vbool false => "false".data
  | .vint n => intDec n
  | .vstr s => '"' :: escStr s.data ++ ['"']
  | .oid _ => "null".data
  | .vlist xs => '[' :: joinSep ", ".data (dumpsItems xs) ++ [']']
  | .vdict es => '{' :: joinSep ", ".data (dumpsEntries es) ++ ['}']

/-- Renderings of list elements. -/
def dumpsItems : List Value → List (List Char)
  | [] => []
  | v :: rest => dumpsV v :: dumpsItems rest

/-- Renderings of dict entries, with the default `": "` separator. -/
def dumpsEntries : List (String × Value) → List (List Char)
  | [] => []
  | (k, v) :: rest =>
      ('"' :: escStr k.data ++ ['"', ':', ' '] ++ dumpsV v) :: dumpsEntries rest

end

/-- JSON insignificant whitespace. -/
def isWsC (c : Char) : Bool :=
  c = ' ' || c = '\t' || c = '\n' || c = '\r'

/-- Skip JSON whitespace. -/
def skipWs (cs : List Char) : List Char := cs.dropWhile isWsC

/-- ASCII decimal digit test. -/
def isDigitC (c : Char) : Bool := 48 ≤ c.toNat && c.toNat ≤ 57

/-- Numeric value of a run of decimal digits. -/
def digitsVal (ds : List Char) : Nat :=
  ds.foldl (fun a c => a * 10 + (c.toNat - 48)) 0

/-- Value of one hexadecimal digit (either case), if any. -/
def hexVal (c : Char) : Option Nat :=
  if 48 ≤ c.toNat && c.toNat ≤ 57 then some (c.toNat - 48)
  else if 97 ≤ c.toNat && c.toNat ≤ 102 then some (c.toNat - 87)
  else if 65 ≤ c.toNat && c.toNat ≤ 70 then some (c.toNat - 55)
  else none

/-- Value of four hexadecimal digits. -/
def hex4Val (c1 c2 c3 c4 : Char) : Option Nat :=
  (hexVal c1).bind fun n1 => (hexVal c2).bind fun n2 =>
    (hexVal c3).bind fun n3 => (hexVal c4).map fun n4 =>
      n1 * 4096 + n2 * 256 + n3 * 16 + n4

/-- Head test for the parser dispatch. -/
def headIs (cs : List Char) (c : Char) : Bool :=
  match cs with
  | x :: _ => x = c
  | [] => false

mutual

/-- Parse the body of a JSON string after the opening quote, decoding
escapes (surrogate pairs combined; a lone surrogate is rejected, since a
Lean `String` holds scalar values only).  Returns the decoded characters
and the input following the closing quote. -/
def pStr : List Char → Option (List Char × List Char)
  | [] => none
  | c :: rest =>
    if c = '"' then some ([], rest)
    else if c = '\\' then pStrEsc rest
    else if c.toNat < 32 then none
    else (pStr rest).map fun p => (c :: p.1, p.2)

/-- Handle the character after a backslash. -/
def pStrEsc : List Char → Option (List Char × List Char)
  | [] => none
  | e :: r =>
    if e = '"' then (pStr r).map fun p => ('"' :: p.1, p.2)
    else if e = '\\' then (pStr r).map fun p => ('\\' :: p.1, p.2)
    else if e = '/' then (pStr r).map fun p => ('/' :: p.1, p.2)
    else if e = 'b' then (pStr r).map fun p => (Char.ofNat 8 :: p.1, p.2)
    else if e = 'f' then (pStr r).map fun p => (Char.ofNat 12 :: p.1, p.2)
    else if e = 'n' then (pStr r).map fun p => (Char.ofNat 10 :: p.1, p.2)
    else if e = 'r' then (pStr r).map fun p => (Char.ofNat 13 :: p.1, p.2)
    else if e = 't' then (pStr r).map fun p => (Char.ofNat 9 :: p.1, p.2)
    else if e = 'u' then pStrU r
    else none

/-- Handle the four hex digits of a `\u` escape, dispatching on
surrogates. -/
def pStrU : List Char → Option (List Char × List Char)
  | c1 :: c2 :: c3 :: c4 :: r2 =>
    (hex4Val c1 c2 c3 c4).bind fun n =>
      if n < 55296 || 57343 < n then
        (pStr r2).map fun p => (Char.ofNat n :: p.1, p.2)
      else if n < 56320 then pStrLow n r2
      else none
  | _ => none

/-- Handle the low half of a surrogate pair (`n` is the high half). -/
def pStrLow (n : Nat) : List Char → Option (List Char × List Char)
  | e2 :: u2 :: d1 :: d2 :: d3 :: d4 :: r3 =>
    if e2 = '\\' && u2 = 'u' then
      (hex4Val d1 d2 d3 d4).bind fun m =>
        if 56320 ≤ m && m ≤ 57343 then
          (pStr r3).map fun p =>
            (Char.ofNat (65536 + (n - 55296) * 1024 + (m - 56320)) :: p.1, p.2)
        else none
    else none
  | _ => none

end

/-- Parse a JSON natural-number literal (maximal digit run; a following
fraction or exponent is rejected, floating point being outside the
model). -/
def pNatNum (cs : List Char) : Option (Nat × List Char) :=
  match cs.takeWhile isDigitC, cs.dropWhile isDigitC with
  | [], _ => none
  | ds, rest =>
    match rest with
    | c :: _ => if c = '.' || c = 'e' || c = 'E' then none else some (digitsVal ds, rest)
    | [] => some (digitsVal ds, [])

/-- Parse a JSON integer literal. -/
def pNum (cs : List Char) : Option (Value × List Char) :=
  if headIs cs '-' then
    (pNatNum cs.tail).map fun p => (.vint (-(p.1 : Int)), p.2)
  else (pNatNum cs).map fun p => (.vint (p.1 : Int), p.2)

/-- Parse the tail of the literal `null`. -/
def pNull : List Char → Option (Value × List Char)
  | 'u' :: 'l' :: 'l' :: r2 => some (.vnull, r2)
  | _ => none

/-- Parse the tail of the literal `true`. -/
def pTrue : List Char → Option (Value × List Char)
  | 'r' :: 'u' :: 'e' :: r2 => some (.vbool true, r2)
  | _ => none

/-- Parse the tail of the literal `false`. -/
def pFalse : List Char → Option (Value × List Char)
  | 'a' :: 'l' :: 's' :: 'e' :: r2 => some (.vbool false, r2)
  | _ => none

mutual

/-- Fueled recursive-descent JSON value parser, modelling `json.loads`.
The fuel only bounds nesting; `jsonLoads` supplies enough for any input
it accepts. -/
def pVal : Nat → List Char → Option (Value × List Char)
  | 0, _ => none
  | fuel + 1, cs => pValCore fuel (skipWs cs)

/-- Dispatch on the first significant character of a value. -/
def pValCore : Nat → List Char → Option (Value × List Char)
  | 0, _ => none
  | fuel + 1, cs =>
    match cs with
    | [] => none
    | c :: r =>
      if c = 'n' then pNull r
      else if c = 't' then pTrue r
      else if c = 'f' then pFalse r
      else if c = '"' then (pStr r).map fun p => (.vstr (String.mk p.1), p.2)
      else if c = '[' then pArr fuel (skipWs r)
      else if c = '{' then pObj fuel (skipWs r)
      else pNum (c :: r)

/-- Parse an array body after the opening bracket (whitespace already
skipped). -/
def pArr : Nat → List Char → Option (Value × List Char)
  | 0, _ => none
  | fuel + 1, r2 =>
    if headIs r2 ']' then some (.vlist [], r2.tail)
    else (pItems fuel r2).map fun p => (.vlist p.1, p.2)

/-- Parse an object body after the opening brace (whitespace already
skipped). -/
def pObj : Nat → List Char → Option (Value × List Char)
  | 0, _ => none
  | fuel + 1, r2 =>
    if headIs r2 '}' then some (.vdict [], r2.tail)
    else (pEntries fuel r2).map fun p => (.vdict p.1, p.2)

/-- Parse one or more comma-separated array items up to the closing
bracket. -/
def pItems : Nat → List Char → Option (List Value × List Char)
  | 0, _ => none
  | fuel + 1, cs =>
    (pVal fuel cs).bind fun p =>
      let r2 := skipWs p.2
      if headIs r2 ',' then
        (pItems fuel r2.tail).map fun q => (p.1 :: q.1, q.2)
      else if headIs r2 ']' then some ([p.1], r2.tail)
      else none

/-- Parse one or more comma-separated object entries up to the closing
brace. -/
def pEntries : Nat → List Char → Option (List (String × Value) × List Char)
  | 0, _ => none
  | fuel + 1, cs =>
    match skipWs cs with
    | [] => none
    | c :: r =>
      if c = '"' then
        (pStr r).bind fun pk =>
          let r2 := skipWs pk.2
          if headIs r2 ':' then
            (pVal fuel r2.tail).bind fun pv =>
              let r3 := skipWs pv.2
              if headIs r3 ',' then
                (pEntries fuel r3.tail).map fun q => ((String.mk pk.1, pv.1) :: q.1, q.2)
              else if headIs r3 '}' then some ([(String.mk pk.1, pv.1)], r3.tail)
              else none
          else none
      else none

end

/-- Parse a complete JSON document, modelling `json.loads`: the whole
input must be consumed up to trailing whitespace. -/
def jsonLoads (cs : List Char) : Option Value :=
  match pVal (5 * cs.length + 5) cs with
  | some (v, rest) => if (skipWs rest).isEmpty then some v else none
  | none => none

/-- UTF-8 encoding of one character. -/
def utf8Char (c : Char) : List Nat :=
  let n := c.toNat
  if n < 128 then [n]
  else if n < 2048 then [192 + n / 64, 128 + n % 64]
  else if n < 65536 then [224 + n / 4096, 128 + n / 64 % 64, 128 + n % 64]
  else [240 + n / 262144, 128 + n / 4096 % 64, 128 + n / 64 % 64, 128 + n % 64]

/-- UTF-8 encoding of a character sequence (Python `str.encode`). -/
def utf8Encode : List Char → List Nat
  | [] => []
  | c :: rest => utf8Char c ++ utf8Encode rest

/-- Continuation-byte test. -/
def isCont (b : Nat) : Bool := 128 ≤ b && b < 192

mutual

/-- UTF-8 decoding (Python `bytes.decode`, strict): rejects ill-formed,
overlong, surrogate and out-of-range sequences. -/
def utf8Decode : List Nat → Option (List Char)
  | [] => some []
  | b :: rest =>
    if b < 128 then (utf8Decode rest).map fun cs => Char.ofNat b :: cs
    else if b < 194 then none
    else if b < 224 then utf8Dec2 b rest
    else if b < 240 then utf8Dec3 b rest
    else if b < 245 then utf8Dec4 b rest
    else none

/-- Two-byte sequences. -/
def utf8Dec2 (b : Nat) : List Nat → Option (List Char)
  | b2 :: rest2 =>
    if isCont b2 then
      (utf8Decode rest2).map fun cs => Char.ofNat ((b - 192) * 64 + (b2 - 128)) :: cs
    else none
  | _ => none

/-- Three-byte sequences. -/
def utf8Dec3 (b : Nat) : List Nat → Option (List Char)
  | b2 :: b3 :: rest2 =>
    if isCont b2 && isCont b3 then
      let n := (b - 224) * 4096 + (b2 - 128) * 64 + (b3 - 128)
      if 2048 ≤ n && (n < 55296 || 57343 < n) then
        (utf8Decode rest2).map fun cs => Char.ofNat n :: cs
      else none
    else none
  | _ => none

/-- Four-byte sequences. -/
def utf8Dec4 (b : Nat) : List Nat → Option (List Char)
  | b2 :: b3 :: b4 :: rest2 =>
    if isCont b2 && isCont b3 && isCont b4 then
      let n := (b - 240) * 262144 + (b2 - 128) * 4096 + (b3 - 128) * 64 + (b4 - 128)
      if 65536 ≤ n && n < 1114112 then
        (utf8Decode rest2).map fun cs => Char.ofNat n :: cs
      else none
    else none
  | _ => none

end

/-- The standard base64 alphabet. -/
def b64Alpha : List Char :=
  "ABCDEFGHIJKLMNOPQRSTUVWXYZabcdefghijklmnopqrstuvwxyz0123456789+/".data

/-- Character of a sextet in the standard alphabet. -/
def b64Chr (n : Nat) : Char := b64Alpha.getD n 'A'

/-- Sextet of an alphabet character, if any. -/
def b64Val (c : Char) : Option Nat := b64Alpha.indexOf? c

/-- Standard base64 encoding of a byte sequence, with padding
(`base64.b64encode`). -/
def b64EncodeBytes : List Nat → List Char
  | [] => []
  | [b1] => [b64Chr (b1 / 4), b64Chr (b1 % 4 * 16), '=', '=']
  | [b1, b2] => [b64Chr (b1 / 4), b64Chr (b1 % 4 * 16 + b2 / 16), b64Chr (b2 % 16 * 4), '=']
  | b1 :: b2 :: b3 :: rest =>
    b64Chr (b1 / 4) :: b64Chr (b1 % 4 * 16 + b2 / 16) ::
    b64Chr (b2 % 16 * 4 + b3 / 64) :: b64Chr (b3 % 64) :: b64EncodeBytes rest

/-- Decode base64 quads with optional final padding.  Strict about the
position of `=`; `base64.b64decode` is laxer on some malformed inputs
(it stops at interior padding), which only affects which garbage inputs
count as undecodable. -/
def b64DecodeQuads : List Char → Option (List Nat)
  | [] => some []
  | c1 :: c2 :: c3 :: c4 :: rest =>
    if rest.isEmpty && c3 = '=' && c4 = '=' then
      (b64Val c1).bind fun v1 => (b64Val c2).map fun v2 => [v1 * 4 + v2 / 16]
    else if rest.isEmpty && c4 = '=' then
      (b64Val c1).bind fun v1 => (b64Val c2).bind fun v2 => (b64Val c3).map fun v3 =>
        [v1 * 4 + v2 / 16, v2 % 16 * 16 + v3 / 4]
    else
      (b64Val c1).bind fun v1 => (b64Val c2).bind fun v2 =>
        (b64Val c3).bind fun v3 => (b64Val c4).bind fun v4 =>
          (b64DecodeQuads rest).map fun bs =>
            (v1 * 4 + v2 / 16) :: (v2 % 16 * 16 + v3 / 4) :: (v3 % 4 * 64 + v4) :: bs
  | _ => none

/-- Translation applied by `urlsafe_b64encode`: `+` to `-` and `/` to `_`. -/
def toUrlsafe (c : Char) : Char :=
  if c = '+' then '-' else if c = '/' then '_' else c

/-- Translation applied by `urlsafe_b64decode` before decoding: `-` to
`+` and `_` to `/`. -/
def fromUrlsafe (c : Char) : Char :=
  if c = '-' then '+' else if c = '_' then '/' else c

/-- URL-safe base64 encoding of bytes, as `base64.urlsafe_b64encode`. -/
def urlsafeB64Encode (bs : List Nat) : List Char :=
  (b64EncodeBytes bs).map toUrlsafe

/-- URL-safe base64 decoding of a string, as
`base64.urlsafe_b64decode(s.encode())`: translate the urlsafe alphabet
back, discard characters outside the alphabet (so any non-ASCII byte of
the input is discarded), then decode; `none` models `binascii.Error`. -/
def urlsafeB64Decode (s : String) : Option (List Nat) :=
  b64DecodeQuads ((s.data.map fromUrlsafe).filter fun c => c ∈ b64Alpha || c = '=')

/-- The full token-encoding chain of `get_documents_cursor` lines
102-103: `base64.urlsafe_b64encode(cursor_json.encode()).decode()`. -/
def encodeToken (cs : List Char) : String :=
  String.mk (urlsafeB64Encode (utf8Encode cs))

/-- The cursor-decoding stage of `get_documents_cursor` lines 38-44:
base64-decode, UTF-8-decode and JSON-parse the token; any failure
(caught as `ValueError`/`TypeError`/`JSONDecodeError` in the source)
yields `none`. -/
def parseCursor (s : String) : Option Value :=
  (urlsafeB64Decode s).bind fun bytes =>
    (utf8Decode bytes).bind fun chars => jsonLoads chars

/-- The standalone `encode_cursor` of pagination.py lines 113-122. -/
def encode_cursor (document_id : String) : String :=
  String.mk (urlsafeB64Encode (utf8Encode document_id.data))

/-- The standalone `decode_cursor` of pagination.py lines 125-138:
base64-decode then UTF-8-decode, `none` on failure. -/
def decode_cursor (cursor : String) : Option String :=
  (urlsafeB64Decode cursor).bind fun bytes =>
    (utf8Decode bytes).map fun chars => String.mk chars

/-- Python exceptions that the modelled code can raise. -/
inductive PyErr where
  | invalidId
  | typeErr
  | attrErr
  | keyErr
  | fuelOut
deriving DecidableEq

/-- First value under a key in a dict (Python `d[k]` / `d.get(k)`;
Python dicts have unique keys, the association list keeps the first). -/
def dLookup (d : Doc) (k : String) : Option Value :=
  match d with
  | [] => none
  | (k', v) :: rest => if k' == k then some v else dLookup rest k

/-- Python `d.get(k)`: `None` when the key is absent. -/
def dGetD (d : Doc) (k : String) : Value := (dLookup d k).getD .vnull

/-- Python `d[k] = v`: replace in place, or append preserving insertion
order. -/
def dSet (d : Doc) (k : String) (v : Value) : Doc :=
  if d.any (fun e => e.1 == k) then
    d.map fun e => if e.1 == k then (e.1, v) else e
  else d ++ [(k, v)]

/-- The hexadecimal characters accepted by the 24-hex-char candidate rule
in `convert_object_ids_in_query` (utils.py), which is also exactly the
set under which `bson.ObjectId` accepts a 24-character string. -/
def hexChars : List Char := "0123456789abcdefABCDEF".data

/-- The 24-hex-character identifier-candidate test of utils.py. -/
def isHex24 (s : String) : Bool :=
  s.data.length == 24 && s.data.all (fun c => c ∈ hexChars)

/-- ASCII lowercasing (`bson.ObjectId` stores bytes and renders its
string form in lowercase hex). -/
def asciiLower (s : String) : String :=
  String.mk (s.data.map fun c =>
    if 65 ≤ c.toNat && c.toNat ≤ 90 then Char.ofNat (c.toNat + 32) else c)

/-- Python `bson.ObjectId(x)`: a 24-hex string is accepted (normalised to
lowercase), any other string raises `InvalidId`, an `ObjectId` passes
through, `None` generates a fresh identifier (the `fresh` oracle models
that nondeterminism), and other types raise `TypeError`. -/
def objectIdOf (fresh : String) : Value → Except PyErr Value
  | .vstr s => if isHex24 s then .ok (.oid (asciiLower s)) else .error .invalidId
  | .oid s => .ok (.oid s)
  | .vnull => .ok (.oid fresh)
  | _ => .error .typeErr

/-- Does the key start with the `$` operator marker? -/
def startsDollar (k : String) : Bool :=
  match k.data with
  | c :: _ => c = '$'
  | [] => false

/-- Same-type-bracket strict greater-than, as MongoDB `$gt`. -/
def vGtB (actual arg : Value) : Bool :=
  vRank actual == vRank arg && vCmp actual arg == .gt

/-- Same-type-bracket strict less-than, as MongoDB `$lt`. -/
def vLtB (actual arg : Value) : Bool :=
  vRank actual == vRank arg && vCmp actual arg == .lt

/-- Is the character-list `p` an infix of `s`? -/
def isInfixL (p : List Char) : Bool → List Char → Bool
  | _, [] => p.isEmpty
  | b, s@(_ :: rest) => p.isPrefixOf s || isInfixL p b rest

/-- Model of the `$regex` operator for the patterns this code builds
(the raw user search string): literal substring containment,
case-insensitive under the `i` option.  Regular-expression
metacharacters are not modelled; no claim depends on them. -/
def regexMatch (pat : String) (iopt : Bool) (s : String) : Bool :=
  if iopt then isInfixL (asciiLower pat).data true (asciiLower s).data
  else isInfixL pat.data true s.data

/-- One MongoDB comparison operator applied to the value of a field
(`iopt` carries a sibling `$options: "i"`).  Operators outside the
vocabulary used and accepted by this code match nothing. -/
def evalOp (actual : Value) (op : String) (arg : Value) (iopt : Bool) : Bool :=
  if op == "$eq" then vEq actual arg
  else if op == "$ne" then !vEq actual arg
  else if op == "$gt" then vGtB actual arg
  else if op == "$lt" then vLtB actual arg
  else if op == "$gte" then vEq actual arg || vGtB actual arg
  else if op == "$lte" then vEq actual arg || vLtB actual arg
  else if op == "$in" then
    match arg with
    | .vlist xs => xs.any (vEq actual)
    | _ => false
  else if op == "$nin" then
    match arg with
    | .vlist xs => !xs.any (vEq actual)
    | _ => false
  else if op == "$regex" then
    match actual, arg with
    | .vstr s, .vstr p => regexMatch p iopt s
    | _, _ => false
  else if op == "$options" then true
  else false

/-- Match one field condition against the field's value: an operator
document applies all its operators, any other value is an equality
match (a missing field is `None`, so `{f: null}` matches absence, as in
MongoDB; array-element equality semantics are not modelled). -/
def matchCond (actual cond : Value) : Bool :=
  match cond with
  | .vdict entries =>
    if entries.any (fun e => startsDollar e.1) then
      let iopt := entries.any fun e =>
        e.1 == "$options" &&
          (match e.2 with
           | .vstr o => o.data.contains 'i'
           | _ => false)
      entries.all fun e => evalOp actual e.1 e.2 iopt
    else vEq actual cond
  | c => vEq actual c

mutual

/-- MongoDB filter matching for the query shapes this code builds and
accepts: a conjunction over top-level keys, `$or` over subqueries, and
field conditions via `matchCond`.  Top-level operators outside this
vocabulary match nothing (MongoDB would reject them). -/
def matchesQ : List (String × Value) → Doc → Bool
  | [], _ => true
  | (k, cond) :: rest, d =>
    (if k == "$or" then matchOr cond d
     else if startsDollar k then false
     else matchCond (dGetD d k) cond) && matchesQ rest d

/-- The `$or` operator: its argument must be a list of subquery
documents, at least one of which matches. -/
def matchOr : Value → Doc → Bool
  | .vlist subs, d => matchOrAny subs d
  | _, _ => false

/-- Disjunction over `$or` branches. -/
def matchOrAny : List Value → Doc → Bool
  | [], _ => false
  | s :: rest, d =>
    (match s with
     | .vdict sq => matchesQ sq d
     | _ => false) || matchOrAny rest d

end

/-- Stable insertion: place `x` before the first element it compares
less-or-equal to. -/
def insertOrd (le : α → α → Bool) (x : α) : List α → List α
  | [] => [x]
  | y :: ys => if le x y then x :: y :: ys else y :: insertOrd le x ys

/-- Stable insertion sort. -/
def sortSt (le : α → α → Bool) : List α → List α
  | [] => []
  | x :: xs => insertOrd le x (sortSt le xs)

/-- Document order under a single sort key, as requested by
`collection.find(...).sort([(sort_field, sort_direction)])`: a missing
field sorts like `None`. -/
def docLe (sf : String) (dir : Int) (a b : Doc) : Bool :=
  if dir == 1 then vCmp (dGetD a sf) (dGetD b sf) != .gt
  else vCmp (dGetD a sf) (dGetD b sf) != .lt

/-- The store's `find` with a one-key sort: filter the collection, then
stable-sort (ties keep collection order, one of the orders MongoDB may
return for a non-unique sort key). -/
def findSorted (coll : List Doc) (q : List (String × Value)) (sf : String) (dir : Int) : List Doc :=
  sortSt (docLe sf dir) (coll.filter (matchesQ q))

/-- Cursor decoding step of `get_documents_cursor` lines 36-44: `None`
and the empty string are falsy, an undecodable token is ignored. -/
def decodedCursor : Option String → Option Value
  | some c => if c == "" then none else parseCursor c
  | none => none

/-- Query augmentation of `get_documents_cursor` lines 46-70.  A truthy
decoded cursor must support `.get` (else `AttributeError`); the code
calls `ObjectId(last_doc.get("_id"))` outside any `try`, so its
`InvalidId`/`TypeError` propagates.  Note the dict assignments
`mongo_query["_id"] = ...` and `mongo_query["$or"] = ...` overwrite any
same-named key of the caller's filter. -/
def buildMongoQuery (query : List (String × Value)) (last_doc : Option Value)
    (sf : String) (dir : Int) (fresh : String) : Except PyErr (List (String × Value)) :=
  match last_doc with
  | none => .ok query
  | some ld =>
    if truthy ld then
      match ld with
      | .vdict ldd =>
        let op := if dir == 1 then "$gt" else "$lt"
        if sf == "_id" then
          (objectIdOf fresh (dGetD ldd "_id")).map fun lastId =>
            dSet query "_id" (.vdict [(op, lastId)])
        else
          let sv := dGetD ldd sf
          (objectIdOf fresh (dGetD ldd "_id")).map fun lastId =>
            dSet query "$or" (.vlist [
              .vdict [(sf, .vdict [(op, sv)])],
              .vdict [(sf, sv), ("_id", .vdict [(op, lastId)])]])
      | _ => .error .attrErr
    else .ok query

/-- Sort-value conversion of `get_documents_cursor` lines 90-99: an
`ObjectId` becomes its string, and a value `json.dumps` rejects is
stringified; `None` is kept. -/
def cursor_sort_value : Value → Value
  | .oid s => .vstr s
  | .vnull => .vnull
  | v => if jsonSerializable v then v else .vstr (pyStr v)

/-- Page result of `get_documents_cursor`. -/
structure Page where
  documents : List Doc
  next_cursor : Option String
  has_more : Bool
  limit : Nat

/-- Cursor record of `get_documents_cursor` line 101:
`{"_id": str(last_doc["_id"]), sort_field: sort_value}`.  A missing
`_id` raises `KeyError`; when `sort_field` is `"_id"` the duplicate dict
key collapses and the second entry wins. -/
def cursor_record (last_doc : Doc) (sort_field : String) : Except PyErr Doc :=
  match dLookup last_doc "_id" with
  | none => .error .keyErr
  | some idv =>
    let sv := cursor_sort_value (dGetD last_doc sort_field)
    .ok (if sort_field == "_id" then [("_id", sv)]
         else [("_id", .vstr (pyStr idv)), (sort_field, sv)])

/-- Python `json.dumps`, failing on non-serializable values. -/
def jsonDumps (v : Value) : Option (List Char) :=
  if jsonSerializable v then some (dumpsV v) else none

/-- Token building of `get_documents_cursor` lines 102-103; a
`json.dumps` failure here would propagate (it is outside any `try`). -/
def encode_cursor_token (cdata : Doc) : Except PyErr String :=
  match jsonDumps (.vdict cdata) with
  | some cs => .ok (encodeToken cs)
  | none => .error .typeErr

/-- Shallow embedding of `get_documents_cursor` (pagination.py lines
11-110) over the store model `findSorted`: decode the cursor, augment
the filter, fetch `limit + 1` rows, trim, and build the next token. -/
def get_documents_cursor (coll : List Doc) (query : List (String × Value))
    (cursor : Option String) (limit : Nat) (sort_field : String)
    (sort_direction : Int) (fresh : String) : Except PyErr Page := do
  let mongo_query ← buildMongoQuery query (decodedCursor cursor) sort_field sort_direction fresh
  let fetched := (findSorted coll mongo_query sort_field sort_direction).take (limit + 1)
  let has_more := decide (limit < fetched.length)
  let documents := if has_more then fetched.dropLast else fetched
  let next_cursor ←
    if has_more && !documents.isEmpty then
      match documents.getLast? with
      | some last => do
        let cdata ← cursor_record last sort_field
        let tok ← encode_cursor_token cdata
        pure (some tok)
      | none => pure none
    else pure none
  pure { documents := documents, next_cursor := next_cursor, has_more := has_more, limit := limit }

/-- The repeated-call protocol of the cursor API: call
`get_documents_cursor`, and while the page reports `has_more` with a
continuation token, call again from that token, concatenating the
pages.  The fuel only bounds the number of round trips. -/
def paginate_all (fuel : Nat) (coll : List Doc) (query : List (String × Value))
    (cursor : Option String) (limit : Nat) (sort_field : String)
    (sort_direction : Int) (fresh : String) : Except PyErr (List Doc) :=
  match fuel with
  | 0 => .error .fuelOut
  | fuel + 1 => do
    let p ← get_documents_cursor coll query cursor limit sort_field sort_direction fresh
    match p.has_more, p.next_cursor with
    | true, some tok => do
      let rest ← paginate_all fuel coll query (some tok) limit sort_field sort_direction fresh
      pure (p.documents ++ rest)
    | _, _ => pure p.documents

/-- Candidate conversion of one `$in`/`$nin` list element (utils.py
lines 419-431): only a 24-hex-char string converts (the `ObjectId` call
cannot fail after that check); nothing else is touched. -/
def convInElem : Value → Value
  | .vstr s => if isHex24 s then .oid (asciiLower s) else .vstr s
  | w => w

/-- The `$in`/`$nin` element loop. -/
def convInElems (xs : List Value) : List Value := xs.map convInElem

/-- One operator (utils.py lines 415-437): `$in`/`$nin` lists convert
24-hex-char string elements, `$eq` converts a 24-character string if it
is a valid identifier, all other operators pass through unchanged. -/
def convOpValue (op : String) (opv : Value) : Value :=
  if op == "$in" || op == "$nin" then
    match opv with
    | .vlist xs => .vlist (convInElems xs)
    | v => v
  else if op == "$eq" then
    match opv with
    | .vstr s =>
      if s.length == 24 then
        if isHex24 s then .oid (asciiLower s) else .vstr s
      else .vstr s
    | v => v
  else opv

/-- The operator loop `for op, op_value in value.items()`. -/
def convOps (ops : List (String × Value)) : List (String × Value) :=
  ops.map fun e => (e.1, convOpValue e.1 e.2)

mutual

/-- Shallow embedding of `convert_object_ids_in_query` (utils.py lines
394-462): a non-dict query is returned unchanged, a dict is rebuilt
entrywise. -/
def convert_object_ids_in_query : Value → Value
  | .vdict entries => .vdict (convEntries entries)
  | q => q

/-- The entry loop `for key, value in query.items()`. -/
def convEntries : List (String × Value) → List (String × Value)
  | [] => []
  | (key, value) :: rest => (key, convEntryValue key value) :: convEntries rest

/-- One entry: `_id` string values go through `ObjectId` (kept verbatim
on failure), dict values are treated as operator maps, list values are
converted elementwise, everything else passes through. -/
def convEntryValue (key : String) : Value → Value
  | .vstr s =>
    if key == "_id" then
      if isHex24 s then .oid (asciiLower s) else .vstr s
    else .vstr s
  | .vdict ops => .vdict (convOps ops)
  | .vlist xs => .vlist (convElems xs)
  | v => v

/-- Elements of a general list value (utils.py lines 439-456):
24-hex-char strings convert, nested dicts recurse (the recursive
`convert_object_ids_in_query` call on a dict, with its dict branch
inlined), everything else passes through. -/
def convElem : Value → Value
  | .vstr s => if isHex24 s then .oid (asciiLower s) else .vstr s
  | .vdict d => .vdict (convEntries d)
  | w => w

/-- The general list-element loop. -/
def convElems : List Value → List Value
  | [] => []
  | v :: rest => convElem v :: convElems rest

end

mutual

/-- Shallow embedding of `serialize_object_id` (schema.py lines 33-41):
`ObjectId` values become their string form, containers recurse. -/
def serialize_object_id : Value → Value
  | .oid s => .vstr s
  | .vdict es => .vdict (serEntries es)
  | .vlist xs => .vlist (serElems xs)
  | v => v

/-- Serialization of dict entries. -/
def serEntries : List (String × Value) → List (String × Value)
  | [] => []
  | (k, v) :: rest => (k, serialize_object_id v) :: serEntries rest

/-- Serialization of list elements. -/
def serElems : List Value → List Value
  | [] => []
  | v :: rest => serialize_object_id v :: serElems rest

end

/-- `serialize_object_id` applied to one fetched document (a dict). -/
def serializeDoc (d : Doc) : Doc := serEntries d

/-- Offset-mode result envelope of the service layer. -/
structure OffsetResult where
  documents : List Doc
  total : Nat
  skip : Nat
  limit : Nat

/-- Cursor-mode result envelope of the service layer. -/
structure CursorResult where
  documents : List Doc
  next_cursor : Option String
  has_more : Bool
  limit : Nat

/-- Result of `list_documents_optimized`, one constructor per
pagination mode (`pagination_type` in the source). -/
inductive ListResult where
  | cursorMode (r : CursorResult)
  | offsetMode (r : OffsetResult)

/-- The documents of a `ListResult`. -/
def ListResult.documents : ListResult → List Doc
  | .cursorMode r => r.documents
  | .offsetMode r => r.documents

/-- The limit reported by a `ListResult`. -/
def ListResult.limitVal : ListResult → Nat
  | .cursorMode r => r.limit
  | .offsetMode r => r.limit

/-- The `limit` ceiling of services.py lines 62-64 and 211-213:
`if limit > 200: limit = 200`. -/
def clampLimit (limit : Nat) : Nat := if 200 < limit then 200 else limit

/-- Field projection: `{k: v for k, v in doc.items() if k in projection}`
with `projection = set(fields) | {"_id"}` (cursor mode, services.py lines
108-115), which is also the semantics of the inclusion `$project` stage
built in offset mode (lines 139-142). -/
def projDoc (fields : List String) (d : Doc) : Doc :=
  d.filter fun e => e.1 ∈ fields || e.1 == "_id"

/-- Query building of `list_documents_optimized` (services.py lines
68-92): a JSON-dict query string is normalised through
`convert_object_ids_in_query`; JSON that parses to a non-dict leaves the
filter empty; unparsable text becomes a case-insensitive `$or` regex
search over the first ten searchable fields (`get_searchable_fields`
samples the collection; its result is the `searchableFields` oracle). -/
def buildListQuery (queryStr : Option String) (searchableFields : List String) :
    List (String × Value) :=
  match queryStr with
  | none => []
  | some qs =>
    if qs == "" then []
    else
      match jsonLoads qs.data with
      | some (.vdict q) =>
        (match convert_object_ids_in_query (.vdict q) with
         | .vdict cq => cq
         | _ => [])
      | some _ => []
      | none =>
        let limited := searchableFields.take 10
        if limited.isEmpty then []
        else
          [("$or", .vlist (limited.map fun f =>
            .vdict [(f, .vdict [("$regex", .vstr qs), ("$options", .vstr "i")])]))]

/-- Sort direction from `sort_order`: `1 if sort_order == "asc" else -1`. -/
def sortDirOf (sort_order : String) : Int :=
  if sort_order == "asc" then 1 else -1

/-- Shallow embedding of `CollectionService.list_documents_optimized`
(services.py lines 31-185).  The offset branch models the aggregation
pipeline `$match` / optional `$project` / optional `$sort` / `$facet
{data: [$skip, $limit], total: [$count]}` stage by stage; the `$count`
facet counts every document entering the facet, i.e. all matches. -/
def list_documents_optimized (coll : List Doc) (skip : Nat) (limit0 : Nat)
    (query : Option String) (sort_field : Option String) (sort_order : String)
    (cursor : Option String) (use_cursor : Bool) (fields : Option (List String))
    (searchableFields : List String) (fresh : String) : Except PyErr ListResult :=
  let limit := clampLimit limit0
  let mongo_query := buildListQuery query searchableFields
  if use_cursor then do
    let dir := sortDirOf sort_order
    let sf := match sort_field with
      | some s => if s == "" then "_id" else s
      | none => "_id"
    let cres ← get_documents_cursor coll mongo_query cursor limit sf dir fresh
    let docs :=
      match fields with
      | some fs => if fs.isEmpty then cres.documents else cres.documents.map (projDoc fs)
      | none => cres.documents
    .ok (.cursorMode { documents := docs.map serializeDoc,
                       next_cursor := cres.next_cursor,
                       has_more := cres.has_more, limit := limit })
  else
    let sortSpec : Option (String × Int) :=
      match sort_field with
      | some s => if s == "" then none else some (s, sortDirOf sort_order)
      | none => none
    let matched := coll.filter (matchesQ mongo_query)
    let projected :=
      match fields with
      | some fs => if fs.isEmpty then matched else matched.map (projDoc fs)
      | none => matched
    let sorted :=
      match sortSpec with
      | some sd => sortSt (docLe sd.1 sd.2) projected
      | none => projected
    let data := (sorted.drop skip).take limit
    .ok (.offsetMode { documents := data.map serializeDoc,
                       total := matched.length, skip := skip, limit := limit })

/-- Shallow embedding of `CollectionService.search_documents_optimized`
(services.py lines 187-260): like the offset branch, with the caller's
dict query normalised through `convert_object_ids_in_query`; this path
never raises. -/
def search_documents_optimized (coll : List Doc) (query : List (String × Value))
    (skip : Nat) (limit0 : Nat) (sort_field : Option String) (sort_order : String)
    (fields : Option (List String)) : OffsetResult :=
  let limit := clampLimit limit0
  let mongo_query :=
    match convert_object_ids_in_query (.vdict query) with
    | .vdict cq => cq
    | _ => []
  let sortSpec : Option (String × Int) :=
    match sort_field with
    | some s => if s == "" then none else some (s, sortDirOf sort_order)
    | none => none
  let matched := coll.filter (matchesQ mongo_query)
  let projected :=
    match fields with
    | some fs => if fs.isEmpty then matched else matched.map (projDoc fs)
    | none => matched
  let sorted :=
    match sortSpec with
    | some sd => sortSt (docLe sd.1 sd.2) projected
    | none => projected
  let data := (sorted.drop skip).take limit
  { documents := data.map serializeDoc, total := matched.length,
    skip := skip, limit := limit }

/-- A schema report as built by schema.py / router.py: a field map, the
sample count, and whether the diagnostic block was attached. -/
structure SchemaR where
  fields : List (String × Value)
  sample_count : Nat
  diagnostic : Bool

/-- The empty report `{"fields": {}, "sample_count": 0}`. -/
def emptySchemaR : SchemaR := ⟨[], 0, false⟩

/-- Shallow embedding of `infer_schema` (schema.py lines 134-161).  Per
its own docstring, "Schema is NOT inferred from MongoDB documents": the
collection and sample-size arguments are unused, and with no Pydantic
model the empty schema is returned.  The Pydantic-model argument is
modelled by the outcome of `infer_schema_from_pydantic` on it (a report,
or the `TypeError`/`AttributeError` it raises), since that function only
reflects on Python type annotations. -/
def infer_schema (_collection : List Doc) (_sample_size : Nat)
    (pydantic_model : Option (Except Unit SchemaR)) : Except Unit SchemaR :=
  match pydantic_model with
  | some outcome => outcome
  | none => .ok emptySchemaR

/-- Shallow embedding of the schema-source priority chain of
`get_collection_schema` (router.py lines 295-411): try the registered
Pydantic model first (a raised error is caught and leaves the empty
schema); only if the field map is still empty consult the OpenAPI
registry (`none` models no app instance, `.error` a caught
`infer_schema_from_openapi` failure, and a report with an empty field
map is ignored); if the result is still empty attach the diagnostic
block. -/
def get_collection_schema (collection : List Doc) (sample_size : Nat)
    (pydantic_model : Option (Except Unit SchemaR))
    (openapi : Option (Except Unit SchemaR)) : SchemaR :=
  let schema0 : SchemaR :=
    match pydantic_model with
    | some _ =>
      match infer_schema collection sample_size pydantic_model with
      | .ok s => s
      | .error _ => emptySchemaR
    | none => emptySchemaR
  let schema1 :=
    if schema0.fields.isEmpty then
      match openapi with
      | some (.ok s) => if !s.fields.isEmpty then s else schema0
      | some (.error _) => schema0
      | none => schema0
    else schema0
  if schema1.fields.isEmpty then { schema1 with diagnostic := true } else schema1

/-- A converted `$in` element is a fixpoint of the conversion. -/
theorem convInElem_idem (v : Value) : convInElem (convInElem v) = convInElem v := by
  cases v with
  | vstr s =>
    by_cases hx : isHex24 s = true
    · simp [convInElem, hx]
    · simp [convInElem, hx]
  | vnull => rfl
  | vbool _ => rfl
  | vint _ => rfl
  | oid _ => rfl
  | vlist _ => rfl
  | vdict _ => rfl

/-- Idempotence over `$in`/`$nin` list elements. -/
theorem convInElems_idem (xs : List Value) :
    convInElems (convInElems xs) = convInElems xs := by
  induction xs with
  | nil => rfl
  | cons v rest ih =>
    simp only [convInElems, List.map_cons] at ih ⊢
    rw [convInElem_idem]
    exact congrArg _ (by simpa [convInElems] using ih)

/-- Idempotence of the per-operator conversion. -/
theorem convOpValue_idem (op : String) (opv : Value) :
    convOpValue op (convOpValue op opv) = convOpValue op opv := by
  by_cases h : (op == "$in" || op == "$nin") = true
  · cases opv with
    | vlist xs => simp [convOpValue, h, convInElems_idem xs]
    | vstr s => simp [convOpValue, h]
    | vnull => simp [convOpValue, h]
    | vbool _ => simp [convOpValue, h]
    | vint _ => simp [convOpValue, h]
    | oid _ => simp [convOpValue, h]
    | vdict _ => simp [convOpValue, h]
  · by_cases he : (op == "$eq") = true
    · cases opv with
      | vstr s =>
        by_cases hl : (s.length == 24) = true
        · by_cases hx : isHex24 s = true
          · simp [convOpValue, h, he, hl, hx]
          · simp [convOpValue, h, he, hl, hx]
        · simp [convOpValue, h, he, hl]
      | vnull => simp [convOpValue, h, he]
      | vbool _ => simp [convOpValue, h, he]
      | vint _ => simp [convOpValue, h, he]
      | oid _ => simp [convOpValue, h, he]
      | vlist _ => simp [convOpValue, h, he]
      | vdict _ => simp [convOpValue, h, he]
    · simp [convOpValue, h, he]

/-- Idempotence over the operator loop. -/
theorem convOps_idem (ops : List (String × Value)) :
    convOps (convOps ops) = convOps ops := by
  induction ops with
  | nil => rfl
  | cons e rest ih =>
    simp only [convOps, List.map_cons, List.map_map] at ih ⊢
    rw [convOpValue_idem]
    exact congrArg _ (by simpa [convOps] using ih)

/-- A converted string entry value is a fixpoint of the entry
conversion. -/
theorem convEntryValue_str (k s : String) :
    convEntryValue k (convEntryValue k (.vstr s)) = convEntryValue k (.vstr s) := by
  by_cases hk : (k == "_id") = true
  · by_cases hx : isHex24 s = true
    · simp [convEntryValue, hk, hx]
    · simp [convEntryValue, hk, hx]
  · simp [convEntryValue, hk]

mutual

/-- Idempotence over the entry loop. -/
theorem convEntries_idem :
    ∀ es, convEntries (convEntries es) = convEntries es
  | [] => rfl
  | (k, v) :: rest => by
    simp only [convEntries, convEntryValue_idem k v, convEntries_idem rest]

/-- Idempotence of the per-entry conversion. -/
theorem convEntryValue_idem :
    ∀ k v, convEntryValue k (convEntryValue k v) = convEntryValue k v
  | k, .vstr s => convEntryValue_str k s
  | k, .vdict ops => by simp only [convEntryValue, convOps_idem ops]
  | k, .vlist xs => by simp only [convEntryValue, convElems_idem xs]
  | _, .vnull => rfl
  | _, .vbool _ => rfl
  | _, .vint _ => rfl
  | _, .oid _ => rfl

/-- Idempotence over general list elements. -/
theorem convElems_idem : ∀ xs, convElems (convElems xs) = convElems xs
  | [] => rfl
  | v :: rest => by
    simp only [convElems, convElem_idem v, convElems_idem rest]

/-- A converted general list element is a fixpoint of the element
conversion. -/
theorem convElem_idem : ∀ v, convElem (convElem v) = convElem v
  | .vstr s => by
    simp only [convElem]
    by_cases hx : isHex24 s = true
    · simp [convElem, hx]
    · simp [convElem, hx]
  | .vdict d => by
    simp only [convElem, convEntries_idem d]
  | .vnull => rfl
  | .vbool _ => rfl
  | .vint _ => rfl
  | .oid _ => rfl
  | .vlist _ => rfl

end

/-- Idempotence of the query normaliser: values already converted to
native identifiers are no longer strings, so a second pass finds no
further candidates. -/
theorem convert_object_ids_in_query_idem (q : Value) :
    convert_object_ids_in_query (convert_object_ids_in_query q) =
      convert_object_ids_in_query q := by
  cases q with
  | vdict es => simp only [convert_object_ids_in_query, convEntries_idem es]
  | vnull => rfl
  | vbool _ => rfl
  | vint _ => rfl
  | vstr _ => rfl
  | oid _ => rfl
  | vlist _ => rfl

/-- Characters with equal code points are equal. -/
theorem char_eq_of_toNat {a b : Char} (h : a.toNat = b.toNat) : a = b := by
  have ha := Char.ofNat_toNat a
  rw [h, Char.ofNat_toNat] at ha
  exact ha.symm

/-- The code point of a character is valid: below the surrogate range or
above it and below 0x110000. -/
theorem char_valid_range (c : Char) :
    c.toNat < 55296 ∨ (57343 < c.toNat ∧ c.toNat < 1114112) := by
  have h := c.valid
  have he : c.toNat = c.val.toNat := rfl
  rcases h with h | h
  · exact Or.inl (by rw [he]; exact h)
  · exact Or.inr (by rw [he]; exact ⟨h.1, h.2⟩)

/-- Code point of `Char.ofNat` at a valid code point. -/
theorem toNat_ofNat_valid {n : Nat} (h : Nat.isValidChar n) :
    (Char.ofNat n).toNat = n := by
  simp [Char.ofNat, h]
  rfl

/-- Validity from the range shape used in this file. -/
theorem isValidChar_of_range {n : Nat}
    (h : n < 55296 ∨ (57343 < n ∧ n < 1114112)) : Nat.isValidChar n := by
  rcases h with h | h
  · exact Or.inl h
  · exact Or.inr ⟨by omega, h.2⟩

/-- Every character produced by `natDecAux` is a decimal digit. -/
theorem natDecAux_digits :
    ∀ fuel n, n < fuel → ∀ c ∈ natDecAux fuel n, isDigitC c = true := by
  intro fuel
  induction fuel with
  | zero => intro n h; omega
  | succ f ih =>
    intro n _ c hc
    simp only [natDecAux] at hc
    by_cases h10 : n < 10
    · simp [h10] at hc
      subst hc
      have hv : (Char.ofNat (48 + n)).toNat = 48 + n :=
        toNat_ofNat_valid (isValidChar_of_range (by omega))
      simp [isDigitC, hv]
      omega
    · simp [h10, List.mem_append] at hc
      rcases hc with hc | hc
      · exact ih (n / 10) (by omega) c hc
      · subst hc
        have hv : (Char.ofNat (48 + n % 10)).toNat = 48 + n % 10 :=
          toNat_ofNat_valid (isValidChar_of_range (by omega))
        simp [isDigitC, hv]
        omega

/-- `natDecAux` with enough fuel is nonempty. -/
theorem natDecAux_ne_nil :
    ∀ fuel n, n < fuel → natDecAux fuel n ≠ [] := by
  intro fuel
  induction fuel with
  | zero => intro n h; omega
  | succ f _ =>
    intro n _
    simp only [natDecAux]
    by_cases h10 : n < 10
    · simp [h10]
    · simp [h10]

/-- `digitsVal` recovers the number rendered by `natDecAux`. -/
theorem digitsVal_natDecAux :
    ∀ fuel n, n < fuel → digitsVal (natDecAux fuel n) = n := by
  intro fuel
  induction fuel with
  | zero => intro n h; omega
  | succ f ih =>
    intro n hn
    simp only [natDecAux]
    by_cases h10 : n < 10
    · have hv : (Char.ofNat (48 + n)).toNat = 48 + n :=
        toNat_ofNat_valid (isValidChar_of_range (by omega))
      simp [h10, digitsVal, hv]
    · have hrec := ih (n / 10) (by omega)
      have hv : (Char.ofNat (48 + n % 10)).toNat = 48 + n % 10 :=
        toNat_ofNat_valid (isValidChar_of_range (by omega))
      simp only [h10, if_false, digitsVal, List.foldl_append, List.foldl_cons,
        List.foldl_nil]
      simp only [digitsVal] at hrec
      rw [hrec, hv]
      omega

/-- Digit facts for `natDec`. -/
theorem natDec_digits (n : Nat) : ∀ c ∈ natDec n, isDigitC c = true :=
  natDecAux_digits (n + 1) n (by omega)

/-- `natDec` is nonempty. -/
theorem natDec_ne_nil (n : Nat) : natDec n ≠ [] :=
  natDecAux_ne_nil (n + 1) n (by omega)

/-- `digitsVal` inverts `natDec`. -/
theorem digitsVal_natDec (n : Nat) : digitsVal (natDec n) = n :=
  digitsVal_natDecAux (n + 1) n (by omega)

/-- `takeWhile` over an all-true prefix. -/
theorem takeWhile_all_append {p : α → Bool} :
    ∀ (l r : List α), (∀ c ∈ l, p c = true) →
      (l ++ r).takeWhile p = l ++ r.takeWhile p := by
  intro l
  induction l with
  | nil => intro r _; simp
  | cons x xs ih =>
    intro r h
    have hx : p x = true := h x (by simp)
    simp [List.takeWhile, hx]
    exact ih r fun c hc => h c (by simp [hc])

/-- `dropWhile` over an all-true prefix. -/
theorem dropWhile_all_append {p : α → Bool} :
    ∀ (l r : List α), (∀ c ∈ l, p c = true) →
      (l ++ r).dropWhile p = r.dropWhile p := by
  intro l
  induction l with
  | nil => intro r _; simp
  | cons x xs ih =>
    intro r h
    have hx : p x = true := h x (by simp)
    simp [List.dropWhile, hx]
    exact ih r fun c hc => h c (by simp [hc])

/-- A boundary character for a rendered number: whatever legally follows
a JSON number in the contexts this file produces. -/
def numBoundary (cs : List Char) : Prop :=
  match cs with
  | [] => True
  | c :: _ => isDigitC c = false ∧ c ≠ '.' ∧ c ≠ 'e' ∧ c ≠ 'E'

/-- `pNatNum` on a nonempty all-digit run before a boundary. -/
theorem pNatNum_digits (ds : List Char) (hne : ds ≠ [])
    (hdig : ∀ c ∈ ds, isDigitC c = true) (rest : List Char)
    (hb : numBoundary rest) :
    pNatNum (ds ++ rest) = some (digitsVal ds, rest) := by
  obtain ⟨a, l, rfl⟩ : ∃ a l, ds = a :: l := by
    cases ds with
    | nil => exact absurd rfl hne
    | cons a l => exact ⟨a, l, rfl⟩
  have htake := takeWhile_all_append (p := isDigitC) (a :: l) rest hdig
  have hdrop := dropWhile_all_append (p := isDigitC) (a :: l) rest hdig
  cases rest with
  | nil =>
    simp only [List.takeWhile_nil, List.dropWhile_nil, List.append_nil]
      at htake hdrop
    simp only [pNatNum, List.append_nil, htake, hdrop]
  | cons c cs =>
    rcases hb with ⟨hd1, hd2, hd3, hd4⟩
    have hts : (c :: cs).takeWhile isDigitC = [] := by
      simp [List.takeWhile, hd1]
    have hds : (c :: cs).dropWhile isDigitC = c :: cs := by
      simp [List.dropWhile, hd1]
    rw [hts] at htake
    rw [hds] at hdrop
    simp only [List.append_nil, List.cons_append] at htake hdrop
    simp only [pNatNum, htake, hdrop, List.cons_append]
    simp [hd2, hd3, hd4]

/-- `pNatNum` inverts `natDec` before a boundary. -/
theorem pNatNum_natDec (n : Nat) (rest : List Char) (hb : numBoundary rest) :
    pNatNum (natDec n ++ rest) = some (n, rest) := by
  rw [pNatNum_digits (natDec n) (natDec_ne_nil n) (natDec_digits n) rest hb,
    digitsVal_natDec]

/-- A digit is not a minus sign. -/
theorem isDigitC_ne_minus {c : Char} (h : isDigitC c = true) : c ≠ '-' := by
  intro he
  subst he
  simp [isDigitC] at h

/-- `pNum` inverts `intDec` before a boundary. -/
theorem pNum_intDec (n : Int) (rest : List Char) (hb : numBoundary rest) :
    pNum (intDec n ++ rest) = some (.vint n, rest) := by
  by_cases hn : n < 0
  · have hshape : intDec n ++ rest = '-' :: (natDec n.natAbs ++ rest) := by
      simp [intDec, hn]
    rw [hshape]
    have hhead : headIs ('-' :: (natDec n.natAbs ++ rest)) '-' = true := by
      simp [headIs]
    simp only [pNum, hhead, if_true, List.tail_cons,
      pNatNum_natDec n.natAbs rest hb, Option.map_some]
    have : -((n.natAbs : Nat) : Int) = n := by omega
    simp [this]
    rw [abs_of_neg hn, neg_neg]
  · have hshape : intDec n ++ rest = natDec n.natAbs ++ rest := by
      simp [intDec, hn]
    rw [hshape]
    obtain ⟨a, l, hd⟩ : ∃ a l, natDec n.natAbs = a :: l := by
      cases hdd : natDec n.natAbs with
      | nil => exact absurd hdd (natDec_ne_nil _)
      | cons a l => exact ⟨a, l, rfl⟩
    have ha : isDigitC a = true := natDec_digits n.natAbs a (by rw [hd]; simp)
    have hhead : headIs (natDec n.natAbs ++ rest) '-' = false := by
      rw [hd]
      simp [headIs]
      exact isDigitC_ne_minus ha
    simp only [pNum, hhead, Bool.false_eq_true, if_false,
      pNatNum_natDec n.natAbs rest hb, Option.map_some]
    have : ((n.natAbs : Nat) : Int) = n := by omega
    simp [this]

/-- `hexVal` inverts `hexDigitL` on one hex digit. -/
theorem hexVal_hexDigitL : ∀ m < 16, hexVal (hexDigitL m) = some m := by decide

/-- `hex4Val` inverts `hex4` on one code unit. -/
theorem hex4Val_hex4 (n : Nat) (h : n < 65536) :
    hex4Val (hexDigitL (n / 4096 % 16)) (hexDigitL (n / 256 % 16))
      (hexDigitL (n / 16 % 16)) (hexDigitL (n % 16)) = some n := by
  rw [hex4Val, hexVal_hexDigitL _ (by omega), hexVal_hexDigitL _ (by omega),
    hexVal_hexDigitL _ (by omega), hexVal_hexDigitL _ (by omega)]
  simp
  omega

/-- `pStr` at a closing quote. -/
theorem pStr_quote (rest : List Char) : pStr ('"' :: rest) = some ([], rest) := by
  simp [pStr]

/-- `pStr` at a literal character. -/
theorem pStr_lit (c : Char) (rest : List Char) (h1 : c ≠ '"') (h2 : c ≠ '\\')
    (h3 : ¬ c.toNat < 32) :
    pStr (c :: rest) = (pStr rest).map fun p => (c :: p.1, p.2) := by
  simp [pStr, h1, h2, h3]

/-- `pStr` at a backslash defers to the escape handler. -/
theorem pStr_backslash (rest : List Char) : pStr ('\\' :: rest) = pStrEsc rest := by
  simp [pStr]

/-- `pStrEsc` at each two-character escape. -/
theorem pStrEsc_two (e : Char) (c : Char) (rest : List Char)
    (he : (e = '"' ∧ c = '"') ∨ (e = '\\' ∧ c = '\\') ∨ (e = '/' ∧ c = '/') ∨
      (e = 'b' ∧ c = Char.ofNat 8) ∨ (e = 'f' ∧ c = Char.ofNat 12) ∨
      (e = 'n' ∧ c = Char.ofNat 10) ∨ (e = 'r' ∧ c = Char.ofNat 13) ∨
      (e = 't' ∧ c = Char.ofNat 9)) :
    pStrEsc (e :: rest) = (pStr rest).map fun p => (c :: p.1, p.2) := by
  rcases he with ⟨he, hc⟩ | ⟨he, hc⟩ | ⟨he, hc⟩ | ⟨he, hc⟩ | ⟨he, hc⟩ |
    ⟨he, hc⟩ | ⟨he, hc⟩ | ⟨he, hc⟩ <;> subst he <;> subst hc <;> simp [pStrEsc]

/-- `pStrEsc` at a `u` defers to the hex handler. -/
theorem pStrEsc_u (rest : List Char) : pStrEsc ('u' :: rest) = pStrU rest := by
  simp [pStrEsc]

/-- `pStrLow` at a well-formed low-surrogate escape. -/
theorem pStrLow_step (n : Nat) (d1 d2 d3 d4 : Char) (r3 : List Char) :
    pStrLow n ('\\' :: 'u' :: d1 :: d2 :: d3 :: d4 :: r3) =
      (hex4Val d1 d2 d3 d4).bind fun m =>
        if 56320 ≤ m && m ≤ 57343 then
          (pStr r3).map fun p =>
            (Char.ofNat (65536 + (n - 55296) * 1024 + (m - 56320)) :: p.1, p.2)
        else none := by
  simp [pStrLow]

/-- `pStrU` when the four digits decode below or above the surrogate
range. -/
theorem pStrU_single (c1 c2 c3 c4 : Char) (n : Nat) (r2 : List Char)
    (h4 : hex4Val c1 c2 c3 c4 = some n) (hn : n < 55296 ∨ 57343 < n) :
    pStrU (c1 :: c2 :: c3 :: c4 :: r2) =
      (pStr r2).map fun p => (Char.ofNat n :: p.1, p.2) := by
  rw [pStrU, h4, Option.some_bind]
  rw [if_pos (show (n < 55296 || 57343 < n) = true by
    simp only [Bool.or_eq_true, decide_eq_true_eq]
    exact hn)]

/-- `pStrU` when the four digits decode to a high surrogate. -/
theorem pStrU_high (c1 c2 c3 c4 : Char) (n : Nat) (r2 : List Char)
    (h4 : hex4Val c1 c2 c3 c4 = some n) (hn1 : 55296 ≤ n) (hn2 : n < 56320) :
    pStrU (c1 :: c2 :: c3 :: c4 :: r2) = pStrLow n r2 := by
  rw [pStrU, h4, Option.some_bind]
  rw [if_neg (show ¬ ((n < 55296 || 57343 < n) = true) by
    simp only [Bool.or_eq_true, decide_eq_true_eq]
    intro hcontra
    rcases hcontra with h | h
    · omega
    · omega)]
  rw [if_pos hn2]

/-- `pStrLow` when the low half decodes in range. -/
theorem pStrLow_val (n m : Nat) (d1 d2 d3 d4 : Char) (r3 : List Char)
    (h4 : hex4Val d1 d2 d3 d4 = some m) (hm1 : 56320 ≤ m) (hm2 : m ≤ 57343) :
    pStrLow n ('\\' :: 'u' :: d1 :: d2 :: d3 :: d4 :: r3) =
      (pStr r3).map fun p =>
        (Char.ofNat (65536 + (n - 55296) * 1024 + (m - 56320)) :: p.1, p.2) := by
  rw [pStrLow_step, h4, Option.some_bind]
  rw [if_pos (show (56320 ≤ m && m ≤ 57343) = true by
    simp only [Bool.and_eq_true, decide_eq_true_eq]
    exact ⟨hm1, hm2⟩)]

/-- Parsing one escaped character: the escape of `c` followed by any
continuation parses to `c` consed onto the parse of the continuation. -/
theorem pStr_escChar (c : Char) (X : List Char) :
    pStr (escChar c ++ X) = (pStr X).map fun p => (c :: p.1, p.2) := by
  by_cases h1 : c = '"'
  · subst h1
    rw [show escChar '"' = ['\\', '"'] from rfl, List.cons_append, List.cons_append,
      List.nil_append, pStr_backslash, pStrEsc_two '"' '"' _ (Or.inl ⟨rfl, rfl⟩)]
  · by_cases h2 : c = '\\'
    · subst h2
      rw [show escChar '\\' = ['\\', '\\'] from rfl, List.cons_append,
        List.cons_append, List.nil_append, pStr_backslash,
        pStrEsc_two '\\' '\\' _ (Or.inr (Or.inl ⟨rfl, rfl⟩))]
    · by_cases h3 : c.toNat = 8
      · have hc : Char.ofNat 8 = c :=
          char_eq_of_toNat (by rw [toNat_ofNat_valid (Or.inl (by omega)), h3])
        have hesc : escChar c = ['\\', 'b'] := by simp [escChar, h1, h2, h3]
        rw [hesc, List.cons_append, List.cons_append, List.nil_append,
          pStr_backslash,
          pStrEsc_two 'b' (Char.ofNat 8) _
            (Or.inr (Or.inr (Or.inr (Or.inl ⟨rfl, rfl⟩)))), hc]
      · by_cases h4 : c.toNat = 9
        · have hc : Char.ofNat 9 = c :=
            char_eq_of_toNat (by rw [toNat_ofNat_valid (Or.inl (by omega)), h4])
          have hesc : escChar c = ['\\', 't'] := by simp [escChar, h1, h2, h3, h4]
          rw [hesc, List.cons_append, List.cons_append, List.nil_append,
            pStr_backslash,
            pStrEsc_two 't' (Char.ofNat 9) _
              (Or.inr (Or.inr (Or.inr (Or.inr (Or.inr (Or.inr (Or.inr ⟨rfl, rfl⟩))))))),
            hc]
        · by_cases h5 : c.toNat = 10
          · have hc : Char.ofNat 10 = c :=
              char_eq_of_toNat (by rw [toNat_ofNat_valid (Or.inl (by omega)), h5])
            have hesc : escChar c = ['\\', 'n'] := by
              simp [escChar, h1, h2, h3, h4, h5]
            rw [hesc, List.cons_append, List.cons_append, List.nil_append,
              pStr_backslash,
              pStrEsc_two 'n' (Char.ofNat 10) _
                (Or.inr (Or.inr (Or.inr (Or.inr (Or.inr (Or.inl ⟨rfl, rfl⟩)))))), hc]
          · by_cases h6 : c.toNat = 12
            · have hc : Char.ofNat 12 = c :=
                char_eq_of_toNat (by rw [toNat_ofNat_valid (Or.inl (by omega)), h6])
              have hesc : escChar c = ['\\', 'f'] := by
                simp [escChar, h1, h2, h3, h4, h5, h6]
              rw [hesc, List.cons_append, List.cons_append, List.nil_append,
                pStr_backslash,
                pStrEsc_two 'f' (Char.ofNat 12) _
                  (Or.inr (Or.inr (Or.inr (Or.inr (Or.inl ⟨rfl, rfl⟩))))), hc]
            · by_cases h7 : c.toNat = 13
              · have hc : Char.ofNat 13 = c :=
                  char_eq_of_toNat (by rw [toNat_ofNat_valid (Or.inl (by omega)), h7])
                have hesc : escChar c = ['\\', 'r'] := by
                  simp [escChar, h1, h2, h3, h4, h5, h6, h7]
                rw [hesc, List.cons_append, List.cons_append, List.nil_append,
                  pStr_backslash,
                  pStrEsc_two 'r' (Char.ofNat 13) _
                    (Or.inr (Or.inr (Or.inr (Or.inr (Or.inr (Or.inr (Or.inl ⟨rfl, rfl⟩))))))),
                  hc]
              · by_cases h8 : (c.toNat < 32 || 126 < c.toNat) = true
                · by_cases h9 : c.toNat < 65536
                  · have hesc : escChar c = '\\' :: 'u' :: hex4 c.toNat := by
                      simp [escChar, h1, h2, h3, h4, h5, h6, h7, h8, h9]
                    rw [hesc, hex4, List.cons_append, List.cons_append,
                      List.cons_append, List.cons_append, List.cons_append,
                      List.cons_append, List.nil_append, pStr_backslash, pStrEsc_u,
                      pStrU_single _ _ _ _ c.toNat _ (hex4Val_hex4 c.toNat h9)
                        (char_valid_range c |>.imp id And.left),
                      Char.ofNat_toNat]
                  · have hub : c.toNat < 1114112 := by
                      rcases char_valid_range c with hv | hv
                      · omega
                      · exact hv.2
                    have hesc : escChar c =
                        '\\' :: 'u' :: hex4 (55296 + (c.toNat - 65536) / 1024) ++
                        ('\\' :: 'u' :: hex4 (56320 + (c.toNat - 65536) % 1024)) := by
                      simp [escChar, h1, h2, h3, h4, h5, h6, h7, h8, h9]
                    rw [hesc, hex4, hex4]
                    simp only [List.cons_append, List.nil_append, List.append_assoc]
                    rw [pStr_backslash, pStrEsc_u,
                      pStrU_high _ _ _ _ (55296 + (c.toNat - 65536) / 1024) _
                        (hex4Val_hex4 _ (by omega)) (by omega) (by omega),
                      pStrLow_val _ (56320 + (c.toNat - 65536) % 1024) _ _ _ _ _
                        (hex4Val_hex4 _ (by omega)) (by omega) (by omega)]
                    rw [show 65536 + (55296 + (c.toNat - 65536) / 1024 - 55296) * 1024 +
                        (56320 + (c.toNat - 65536) % 1024 - 56320) = c.toNat by omega,
                      Char.ofNat_toNat]
                · have h8f : (c.toNat < 32 || 126 < c.toNat) = false :=
                    Bool.of_not_eq_true h8
                  have hr : ¬ c.toNat < 32 ∧ ¬ 126 < c.toNat := by
                    simpa only [Bool.or_eq_false_iff, decide_eq_false_iff_not] using h8f
                  have hesc : escChar c = [c] := by
                    simp [escChar, h1, h2, h3, h4, h5, h6, h7, h8]
                  rw [hesc, List.cons_append, List.nil_append,
                    pStr_lit c _ h1 h2 hr.1]

/-- `pStr` inverts the `json.dumps` string escaping: parsing the escaped
body followed by a closing quote recovers the characters. -/
theorem pStr_escStr : ∀ (cs rest : List Char),
    pStr (escStr cs ++ '"' :: rest) = some (cs, rest) := by
  intro cs
  induction cs with
  | nil =>
    intro rest
    simpa [escStr] using pStr_quote rest
  | cons c cs ih =>
    intro rest
    have hassoc : escStr (c :: cs) ++ '"' :: rest =
        escChar c ++ (escStr cs ++ '"' :: rest) := by
      simp [escStr]
    rw [hassoc, pStr_escChar, ih rest]
    rfl

mutual

/-- Fuel consumed by the parser on a rendered value (an upper bound). -/
def jsonFuel : Value → Nat
  | .vlist xs => 3 + itemsFuel xs
  | .vdict es => 3 + entriesFuel es
  | _ => 2

/-- Fuel for the items of an array. -/
def itemsFuel : List Value → Nat
  | [] => 0
  | v :: rest => 1 + jsonFuel v + itemsFuel rest

/-- Fuel for the entries of an object. -/
def entriesFuel : List (String × Value) → Nat
  | [] => 0
  | (_, v) :: rest => 1 + jsonFuel v + entriesFuel rest

end

/-- Skipping whitespace over a non-whitespace head is the identity. -/
theorem skipWs_cons_not_ws {c : Char} (h : isWsC c = false) (r : List Char) :
    skipWs (c :: r) = c :: r := by
  simp [skipWs, List.dropWhile, h]

/-- Skipping whitespace absorbs a leading blank. -/
theorem skipWs_space (r : List Char) : skipWs (' ' :: r) = skipWs r := by
  simp [skipWs, List.dropWhile, isWsC]

/-- A decimal digit is not whitespace. -/
theorem not_ws_of_digit {c : Char} (h : isDigitC c = true) : isWsC c = false := by
  simp only [isDigitC, Bool.and_eq_true, decide_eq_true_eq] at h
  simp only [isWsC, Bool.or_eq_false_iff, decide_eq_false_iff_not]
  refine ⟨⟨⟨?_, ?_⟩, ?_⟩, ?_⟩ <;> intro he <;> subst he <;> simp_all

/-- A decimal digit is not one of the structural characters checked by
the dispatcher. -/
theorem digit_not_special {c : Char} (h : isDigitC c = true) :
    c ≠ 'n' ∧ c ≠ 't' ∧ c ≠ 'f' ∧ c ≠ '"' ∧ c ≠ '[' ∧ c ≠ '{' ∧
      c ≠ ']' ∧ c ≠ '}' ∧ c ≠ ',' := by
  simp only [isDigitC, Bool.and_eq_true, decide_eq_true_eq] at h
  refine ⟨?_, ?_, ?_, ?_, ?_, ?_, ?_, ?_, ?_⟩ <;> intro he <;> subst he <;> simp_all

/-- Head and shape facts about a rendered value: it starts with a
non-whitespace character that is none of the list and object closers or
separators, and for which the dispatcher either handles the value or
falls through to the number parser. -/
theorem dumpsV_head_shape (v : Value) :
    ∃ c t, dumpsV v = c :: t ∧ isWsC c = false ∧ c ≠ ']' ∧ c ≠ '}' ∧ c ≠ ',' := by
  cases v with
  | vnull => exact ⟨'n', _, rfl, by decide, by decide, by decide, by decide⟩
  | vbool b =>
    cases b with
    | true => exact ⟨'t', _, rfl, by decide, by decide, by decide, by decide⟩
    | false => exact ⟨'f', _, rfl, by decide, by decide, by decide, by decide⟩
  | vstr s => exact ⟨'"', _, rfl, by decide, by decide, by decide, by decide⟩
  | oid s => exact ⟨'n', _, rfl, by decide, by decide, by decide, by decide⟩
  | vlist xs => exact ⟨'[', _, rfl, by decide, by decide, by decide, by decide⟩
  | vdict es => exact ⟨'{', _, rfl, by decide, by decide, by decide, by decide⟩
  | vint n =>
    by_cases hn : n < 0
    · refine ⟨'-', natDec n.natAbs, ?_, by decide, by decide, by decide, by decide⟩
      simp [dumpsV, intDec, hn]
    · obtain ⟨a, l, hd⟩ : ∃ a l, natDec n.natAbs = a :: l := by
        cases hdd : natDec n.natAbs with
        | nil => exact absurd hdd (natDec_ne_nil _)
        | cons a l => exact ⟨a, l, rfl⟩
      have ha : isDigitC a = true := natDec_digits n.natAbs a (by rw [hd]; simp)
      have hsp := digit_not_special ha
      refine ⟨a, l, ?_, not_ws_of_digit ha, hsp.2.2.2.2.2.2.1, hsp.2.2.2.2.2.2.2.1,
        hsp.2.2.2.2.2.2.2.2⟩
      simp [dumpsV, intDec, hn, hd]

/-- The dispatcher falls through to the number parser on a digit or
minus sign. -/
theorem pValCore_num (fuel : Nat) (c : Char) (r : List Char)
    (h : isDigitC c = true ∨ c = '-') :
    pValCore (fuel + 1) (c :: r) = pNum (c :: r) := by
  rcases h with h | h
  · have hs := digit_not_special h
    simp [pValCore, hs.1, hs.2.1, hs.2.2.1, hs.2.2.2.1, hs.2.2.2.2.1, hs.2.2.2.2.2.1]
  · subst h
    simp [pValCore]

/-- `pVal` absorbs a leading blank. -/
theorem pVal_space (h : Nat) (X : List Char) : pVal h (' ' :: X) = pVal h X := by
  cases h with
  | zero => rfl
  | succ h => simp [pVal, skipWs_space]

/-- `pItems` absorbs a leading blank. -/
theorem pItems_space (fuel : Nat) (X : List Char) :
    pItems fuel (' ' :: X) = pItems fuel X := by
  cases fuel with
  | zero => rfl
  | succ fuel => simp [pItems, pVal_space]

/-- `pEntries` absorbs a leading blank. -/
theorem pEntries_space (fuel : Nat) (X : List Char) :
    pEntries fuel (' ' :: X) = pEntries fuel X := by
  cases fuel with
  | zero => rfl
  | succ fuel => simp [pEntries, skipWs_space]

/-- The continuations produced while parsing rendered JSON are number
boundaries. -/
theorem numBoundary_comma (X : List Char) : numBoundary (',' :: X) :=
  ⟨by decide, by decide, by decide, by decide⟩

/-- A closing bracket is a number boundary. -/
theorem numBoundary_rbracket (X : List Char) : numBoundary (']' :: X) :=
  ⟨by decide, by decide, by decide, by decide⟩

/-- A closing brace is a number boundary. -/
theorem numBoundary_rbrace (X : List Char) : numBoundary ('}' :: X) :=
  ⟨by decide, by decide, by decide, by decide⟩

/-- The empty continuation is a number boundary. -/
theorem numBoundary_nil : numBoundary ([] : List Char) := trivial

/-- Unfolding `pVal` at positive fuel. -/
theorem pVal_succ (f : Nat) (cs : List Char) :
    pVal (f + 1) cs = pValCore f (skipWs cs) := rfl

/-- Dispatcher at `n`. -/
theorem pValCore_n (f : Nat) (r : List Char) :
    pValCore (f + 1) ('n' :: r) = pNull r := by
  simp [pValCore]

/-- Dispatcher at `t`. -/
theorem pValCore_t (f : Nat) (r : List Char) :
    pValCore (f + 1) ('t' :: r) = pTrue r := by
  simp [pValCore]

/-- Dispatcher at `f`. -/
theorem pValCore_f (f : Nat) (r : List Char) :
    pValCore (f + 1) ('f' :: r) = pFalse r := by
  simp [pValCore]

/-- Dispatcher at a quote. -/
theorem pValCore_quote (f : Nat) (r : List Char) :
    pValCore (f + 1) ('"' :: r) =
      (pStr r).map fun p => (.vstr (String.mk p.1), p.2) := by
  simp [pValCore]

/-- Dispatcher at an opening bracket. -/
theorem pValCore_lbracket (f : Nat) (r : List Char) :
    pValCore (f + 1) ('[' :: r) = pArr f (skipWs r) := by
  simp [pValCore]

/-- Dispatcher at an opening brace. -/
theorem pValCore_lbrace (f : Nat) (r : List Char) :
    pValCore (f + 1) ('{' :: r) = pObj f (skipWs r) := by
  simp [pValCore]

/-- `pArr` at an immediate closing bracket. -/
theorem pArr_close (g : Nat) (t : List Char) :
    pArr (g + 1) (']' :: t) = some (.vlist [], t) := by
  simp [pArr, headIs]

/-- `pArr` at a non-bracket head. -/
theorem pArr_cons (g : Nat) (c : Char) (t : List Char) (h : c ≠ ']') :
    pArr (g + 1) (c :: t) = (pItems g (c :: t)).map fun p => (.vlist p.1, p.2) := by
  simp [pArr, headIs, h]

/-- `pObj` at an immediate closing brace. -/
theorem pObj_close (g : Nat) (t : List Char) :
    pObj (g + 1) ('}' :: t) = some (.vdict [], t) := by
  simp [pObj, headIs]

/-- `pObj` at a non-brace head. -/
theorem pObj_cons (g : Nat) (c : Char) (t : List Char) (h : c ≠ '}') :
    pObj (g + 1) (c :: t) = (pEntries g (c :: t)).map fun p => (.vdict p.1, p.2) := by
  simp [pObj, headIs, h]

/-- The rendering of a nonempty item list starts with the rendering of
its first item. -/
theorem joinSep_items_head (x : Value) (xs : List Value) :
    ∃ K, joinSep ", ".data (dumpsItems (x :: xs)) = dumpsV x ++ K := by
  cases xs with
  | nil => exact ⟨[], by simp [dumpsItems, joinSep]⟩
  | cons y ys =>
    exact ⟨", ".data ++ joinSep ", ".data (dumpsItems (y :: ys)),
      by simp [dumpsItems, joinSep]⟩

mutual

/-- The value parser inverts `json.dumps` on serializable values, given
enough fuel and a continuation that cannot extend a number literal. -/
theorem rt_pVal : ∀ v, jsonSerializable v = true → ∀ fuel rest,
    jsonFuel v ≤ fuel → numBoundary rest →
    pVal fuel (dumpsV v ++ rest) = some (v, rest)
  | .vnull => by
    intro _ fuel rest hf _
    obtain ⟨f, rfl⟩ : ∃ f, fuel = f + 2 :=
      ⟨fuel - 2, by simp [jsonFuel] at hf; omega⟩
    have hshape : dumpsV .vnull ++ rest = 'n' :: 'u' :: 'l' :: 'l' :: rest := rfl
    rw [hshape, show (f + 2) = (f + 1) + 1 from rfl, pVal_succ,
      skipWs_cons_not_ws (by decide), pValCore_n]
    rfl
  | .vbool true => by
    intro _ fuel rest hf _
    obtain ⟨f, rfl⟩ : ∃ f, fuel = f + 2 :=
      ⟨fuel - 2, by simp [jsonFuel] at hf; omega⟩
    have hshape : dumpsV (.vbool true) ++ rest = 't' :: 'r' :: 'u' :: 'e' :: rest := rfl
    rw [hshape, show (f + 2) = (f + 1) + 1 from rfl, pVal_succ,
      skipWs_cons_not_ws (by decide), pValCore_t]
    rfl
  | .vbool false => by
    intro _ fuel rest hf _
    obtain ⟨f, rfl⟩ : ∃ f, fuel = f + 2 :=
      ⟨fuel - 2, by simp [jsonFuel] at hf; omega⟩
    have hshape : dumpsV (.vbool false) ++ rest =
      'f' :: 'a' :: 'l' :: 's' :: 'e' :: rest := rfl
    rw [hshape, show (f + 2) = (f + 1) + 1 from rfl, pVal_succ,
      skipWs_cons_not_ws (by decide), pValCore_f]
    rfl
  | .oid s => by
    intro hser fuel rest hf hb
    simp [jsonSerializable] at hser
  | .vint n => by
    intro _ fuel rest hf hb
    obtain ⟨f, rfl⟩ : ∃ f, fuel = f + 2 :=
      ⟨fuel - 2, by simp [jsonFuel] at hf; omega⟩
    by_cases hn : n < 0
    · have hshape : dumpsV (.vint n) ++ rest = '-' :: (natDec n.natAbs ++ rest) := by
        simp [dumpsV, intDec, hn]
      rw [hshape, show (f + 2) = (f + 1) + 1 from rfl, pVal_succ,
        skipWs_cons_not_ws (by decide), pValCore_num f '-' _ (Or.inr rfl),
        show '-' :: (natDec n.natAbs ++ rest) = intDec n ++ rest by simp [intDec, hn],
        pNum_intDec n rest hb]
    · obtain ⟨a, l, hd⟩ : ∃ a l, natDec n.natAbs = a :: l := by
        cases hdd : natDec n.natAbs with
        | nil => exact absurd hdd (natDec_ne_nil _)
        | cons a l => exact ⟨a, l, rfl⟩
      have ha : isDigitC a = true := natDec_digits n.natAbs a (by rw [hd]; simp)
      have hshape : dumpsV (.vint n) ++ rest = a :: (l ++ rest) := by
        simp [dumpsV, intDec, hn, hd]
      rw [hshape, show (f + 2) = (f + 1) + 1 from rfl, pVal_succ,
        skipWs_cons_not_ws (not_ws_of_digit ha), pValCore_num f a _ (Or.inl ha),
        show a :: (l ++ rest) = intDec n ++ rest by simp [intDec, hn, hd],
        pNum_intDec n rest hb]
  | .vstr s => by
    intro _ fuel rest hf _
    obtain ⟨f, rfl⟩ : ∃ f, fuel = f + 2 :=
      ⟨fuel - 2, by simp [jsonFuel] at hf; omega⟩
    have hshape : dumpsV (.vstr s) ++ rest =
        '"' :: (escStr s.data ++ ('"' :: rest)) := by
      simp [dumpsV]
    rw [hshape, show (f + 2) = (f + 1) + 1 from rfl, pVal_succ,
      skipWs_cons_not_ws (by decide), pValCore_quote, pStr_escStr]
    rfl
  | .vlist [] => by
    intro _ fuel rest hf _
    obtain ⟨f, rfl⟩ : ∃ f, fuel = f + 3 :=
      ⟨fuel - 3, by simp [jsonFuel, itemsFuel] at hf; omega⟩
    have hshape : dumpsV (.vlist []) ++ rest = '[' :: (']' :: rest) := by
      simp [dumpsV, dumpsItems, joinSep]
    rw [hshape, show (f + 3) = (f + 2) + 1 from rfl, pVal_succ,
      skipWs_cons_not_ws (by decide), show (f + 2) = (f + 1) + 1 from rfl,
      pValCore_lbracket, skipWs_cons_not_ws (by decide), pArr_close]
  | .vlist (x :: xs) => by
    intro hser fuel rest hf _
    have hserx : jsonSerializable x = true ∧ jsonSerializableList xs = true := by
      simpa [jsonSerializable, jsonSerializableList] using hser
    obtain ⟨f, rfl⟩ : ∃ f, fuel = f + 3 := by
      refine ⟨fuel - 3, ?_⟩
      simp only [jsonFuel] at hf
      omega
    obtain ⟨K, hJ⟩ := joinSep_items_head x xs
    obtain ⟨c, t, hdx, hws, hne1, _, _⟩ := dumpsV_head_shape x
    have hshape : dumpsV (.vlist (x :: xs)) ++ rest =
        '[' :: (joinSep ", ".data (dumpsItems (x :: xs)) ++ (']' :: rest)) := by
      simp [dumpsV]
    have hJc : joinSep ", ".data (dumpsItems (x :: xs)) ++ (']' :: rest) =
        c :: (t ++ K ++ (']' :: rest)) := by
      rw [hJ, hdx]
      simp
    rw [hshape, show (f + 3) = (f + 2) + 1 from rfl, pVal_succ,
      skipWs_cons_not_ws (by decide), show (f + 2) = (f + 1) + 1 from rfl,
      pValCore_lbracket, hJc, skipWs_cons_not_ws hws, pArr_cons f c _ hne1,
      ← hJc, rt_pItems (x :: xs) (by simp) hser f rest
        (by simp only [jsonFuel] at hf; omega)]
    rfl
  | .vdict [] => by
    intro _ fuel rest hf _
    obtain ⟨f, rfl⟩ : ∃ f, fuel = f + 3 :=
      ⟨fuel - 3, by simp [jsonFuel, entriesFuel] at hf; omega⟩
    have hshape : dumpsV (.vdict []) ++ rest = '{' :: ('}' :: rest) := by
      simp [dumpsV, dumpsEntries, joinSep]
    rw [hshape, show (f + 3) = (f + 2) + 1 from rfl, pVal_succ,
      skipWs_cons_not_ws (by decide), show (f + 2) = (f + 1) + 1 from rfl,
      pValCore_lbrace, skipWs_cons_not_ws (by decide), pObj_close]
  | .vdict (e :: es) => by
    intro hser fuel rest hf _
    obtain ⟨f, rfl⟩ : ∃ f, fuel = f + 3 := by
      refine ⟨fuel - 3, ?_⟩
      simp only [jsonFuel] at hf
      omega
    have hshape : dumpsV (.vdict (e :: es)) ++ rest =
        '{' :: (joinSep ", ".data (dumpsEntries (e :: es)) ++ ('}' :: rest)) := by
      simp [dumpsV]
    have hJc : ∃ T, joinSep ", ".data (dumpsEntries (e :: es)) ++ ('}' :: rest) =
        '"' :: T := by
      cases e with
      | mk k v =>
        cases es with
        | nil =>
          exact ⟨escStr k.data ++ ['"', ':', ' '] ++ dumpsV v ++ ('}' :: rest),
            by simp [dumpsEntries, joinSep]⟩
        | cons e2 es2 =>
          exact ⟨escStr k.data ++ ['"', ':', ' '] ++ dumpsV v ++ ", ".data ++
              joinSep ", ".data (dumpsEntries (e2 :: es2)) ++ ('}' :: rest),
            by simp [dumpsEntries, joinSep]⟩
    obtain ⟨T, hT⟩ := hJc
    rw [hshape, show (f + 3) = (f + 2) + 1 from rfl, pVal_succ,
      skipWs_cons_not_ws (by decide), show (f + 2) = (f + 1) + 1 from rfl,
      pValCore_lbrace, hT, skipWs_cons_not_ws (by decide),
      pObj_cons f '"' _ (by decide), ← hT,
      rt_pEntries (e :: es) (by simp) hser f rest
        (by simp only [jsonFuel] at hf; omega)]
    rfl

/-- The item parser inverts the rendering of a nonempty item list
followed by a closing bracket. -/
theorem rt_pItems : ∀ xs, xs ≠ [] → jsonSerializableList xs = true →
    ∀ fuel rest, itemsFuel xs ≤ fuel →
    pItems fuel (joinSep ", ".data (dumpsItems xs) ++ (']' :: rest)) =
      some (xs, rest)
  | [], h, _ => absurd rfl h
  | [x], _, hser => by
    intro fuel rest hf
    have hserx : jsonSerializable x = true := by
      simpa [jsonSerializableList] using hser
    obtain ⟨g, rfl⟩ : ∃ g, fuel = g + 1 := by
      refine ⟨fuel - 1, ?_⟩
      simp only [itemsFuel] at hf
      omega
    have hshape : joinSep ", ".data (dumpsItems [x]) ++ (']' :: rest) =
        dumpsV x ++ (']' :: rest) := by
      simp [dumpsItems, joinSep]
    rw [hshape]
    simp only [pItems]
    rw [rt_pVal x hserx g (']' :: rest)
      (by simp only [itemsFuel, jsonFuel] at hf ⊢; omega) (numBoundary_rbracket rest)]
    simp only [Option.some_bind]
    rw [skipWs_cons_not_ws (by decide)]
    simp [headIs]
  | x :: y :: ys, _, hser => by
    intro fuel rest hf
    have hserx : jsonSerializable x = true ∧ jsonSerializableList (y :: ys) = true := by
      simpa [jsonSerializableList] using hser
    obtain ⟨g, rfl⟩ : ∃ g, fuel = g + 1 := by
      refine ⟨fuel - 1, ?_⟩
      simp only [itemsFuel] at hf
      omega
    have hshape : joinSep ", ".data (dumpsItems (x :: y :: ys)) ++ (']' :: rest) =
        dumpsV x ++ (',' :: ' ' ::
          (joinSep ", ".data (dumpsItems (y :: ys)) ++ (']' :: rest))) := by
      simp [dumpsItems, joinSep]
    rw [hshape]
    simp only [pItems]
    rw [rt_pVal x hserx.1 g _
      (by simp only [itemsFuel] at hf; omega) (numBoundary_comma _)]
    simp only [Option.some_bind]
    rw [skipWs_cons_not_ws (by decide)]
    simp only [headIs, List.tail_cons, if_pos rfl, decide_True]
    rw [pItems_space,
      rt_pItems (y :: ys) (by simp) hserx.2 g rest
        (by simp only [itemsFuel] at hf ⊢; omega)]
    rfl

/-- The entry parser inverts the rendering of a nonempty entry list
followed by a closing brace. -/
theorem rt_pEntries : ∀ es, es ≠ [] → jsonSerializableDict es = true →
    ∀ fuel rest, entriesFuel es ≤ fuel →
    pEntries fuel (joinSep ", ".data (dumpsEntries es) ++ ('}' :: rest)) =
      some (es, rest)
  | [], h, _ => absurd rfl h
  | [(k, v)], _, hser => by
    intro fuel rest hf
    have hserv : jsonSerializable v = true := by
      simpa [jsonSerializableDict] using hser
    obtain ⟨g, rfl⟩ : ∃ g, fuel = g + 1 := by
      refine ⟨fuel - 1, ?_⟩
      simp only [entriesFuel] at hf
      omega
    have hshape : joinSep ", ".data (dumpsEntries [(k, v)]) ++ ('}' :: rest) =
        '"' :: (escStr k.data ++ ('"' :: (':' :: ' ' :: (dumpsV v ++ ('}' :: rest))))) := by
      simp [dumpsEntries, joinSep]
    rw [hshape]
    simp only [pEntries]
    rw [skipWs_cons_not_ws (by decide)]
    simp only [if_pos rfl, decide_True]
    rw [pStr_escStr]
    simp only [Option.some_bind]
    rw [skipWs_cons_not_ws (by decide)]
    simp only [headIs, List.tail_cons, if_pos rfl, decide_True]
    rw [pVal_space,
      rt_pVal v hserv g _
        (by simp only [entriesFuel, jsonFuel] at hf ⊢; omega) (numBoundary_rbrace _)]
    simp only [Option.some_bind]
    rw [skipWs_cons_not_ws (by decide)]
    simp [headIs]
  | (k, v) :: e2 :: es2, _, hser => by
    intro fuel rest hf
    have hserv : jsonSerializable v = true ∧
        jsonSerializableDict (e2 :: es2) = true := by
      simpa [jsonSerializableDict] using hser
    obtain ⟨g, rfl⟩ : ∃ g, fuel = g + 1 := by
      refine ⟨fuel - 1, ?_⟩
      simp only [entriesFuel] at hf
      omega
    have hshape : joinSep ", ".data (dumpsEntries ((k, v) :: e2 :: es2)) ++ ('}' :: rest) =
        '"' :: (escStr k.data ++ ('"' :: (':' :: ' ' :: (dumpsV v ++ (',' :: ' ' ::
          (joinSep ", ".data (dumpsEntries (e2 :: es2)) ++ ('}' :: rest))))))) := by
      simp [dumpsEntries, joinSep]
    rw [hshape]
    simp only [pEntries]
    rw [skipWs_cons_not_ws (by decide)]
    simp only [if_pos rfl, decide_True]
    rw [pStr_escStr]
    simp only [Option.some_bind]
    rw [skipWs_cons_not_ws (by decide)]
    simp only [headIs, List.tail_cons, if_pos rfl, decide_True]
    rw [pVal_space,
      rt_pVal v hserv.1 g _
        (by simp only [entriesFuel] at hf; omega) (numBoundary_comma _)]
    simp only [Option.some_bind]
    rw [skipWs_cons_not_ws (by decide)]
    simp only [headIs, List.tail_cons, if_pos rfl, decide_True]
    rw [pEntries_space,
      rt_pEntries (e2 :: es2) (by simp) hserv.2 g rest
        (by simp only [entriesFuel] at hf ⊢; omega)]
    rfl

end

/-- A rendered value is nonempty. -/
theorem dumpsV_length_pos (v : Value) : 1 ≤ (dumpsV v).length := by
  obtain ⟨c, t, hd, _⟩ := dumpsV_head_shape v
  rw [hd]
  simp

mutual

/-- The parser fuel needed for a value is dominated by its rendering
length. -/
theorem jsonFuel_le : ∀ v, jsonFuel v ≤ 5 * (dumpsV v).length
  | .vnull => by have := dumpsV_length_pos .vnull; simp only [jsonFuel]; omega
  | .vbool b => by have := dumpsV_length_pos (.vbool b); simp only [jsonFuel]; omega
  | .vint n => by have := dumpsV_length_pos (.vint n); simp only [jsonFuel]; omega
  | .vstr s => by have := dumpsV_length_pos (.vstr s); simp only [jsonFuel]; omega
  | .oid s => by have := dumpsV_length_pos (.oid s); simp only [jsonFuel]; omega
  | .vlist xs => by
    have h := itemsFuel_le xs
    have hlen : (dumpsV (.vlist xs)).length =
        (joinSep ", ".data (dumpsItems xs)).length + 2 := by
      simp [dumpsV]
    simp only [jsonFuel]
    omega
  | .vdict es => by
    have h := entriesFuel_le es
    have hlen : (dumpsV (.vdict es)).length =
        (joinSep ", ".data (dumpsEntries es)).length + 2 := by
      simp [dumpsV]
    simp only [jsonFuel]
    omega

/-- Fuel bound for item lists. -/
theorem itemsFuel_le :
    ∀ xs, itemsFuel xs ≤ 5 * (joinSep ", ".data (dumpsItems xs)).length + 1
  | [] => by simp [itemsFuel]
  | [x] => by
    have h := jsonFuel_le x
    have hlen : (joinSep ", ".data (dumpsItems [x])).length = (dumpsV x).length := by
      simp [dumpsItems, joinSep]
    simp only [itemsFuel, show (", ".data : List Char) = [',', ' '] from rfl] at hlen ⊢
    omega
  | x :: y :: ys => by
    have h1 := jsonFuel_le x
    have h2 := itemsFuel_le (y :: ys)
    have hlen : (joinSep ", ".data (dumpsItems (x :: y :: ys))).length =
        (dumpsV x).length + 2 + (joinSep ", ".data (dumpsItems (y :: ys))).length := by
      simp [dumpsItems, joinSep]
      omega
    simp only [itemsFuel, show (", ".data : List Char) = [',', ' '] from rfl]
      at h2 hlen ⊢
    omega

/-- Fuel bound for entry lists. -/
theorem entriesFuel_le :
    ∀ es, entriesFuel es ≤ 5 * (joinSep ", ".data (dumpsEntries es)).length + 1
  | [] => by simp [entriesFuel]
  | [(k, v)] => by
    have h := jsonFuel_le v
    have hlen : (joinSep ", ".data (dumpsEntries [(k, v)])).length =
        1 + (escStr k.data).length + 3 + (dumpsV v).length := by
      simp [dumpsEntries, joinSep]
      omega
    simp only [entriesFuel, show (", ".data : List Char) = [',', ' '] from rfl]
      at hlen ⊢
    omega
  | (k, v) :: e2 :: es2 => by
    have h1 := jsonFuel_le v
    have h2 := entriesFuel_le (e2 :: es2)
    have hlen : (joinSep ", ".data (dumpsEntries ((k, v) :: e2 :: es2))).length =
        1 + (escStr k.data).length + 3 + (dumpsV v).length + 2 +
          (joinSep ", ".data (dumpsEntries (e2 :: es2))).length := by
      simp [dumpsEntries, joinSep]
      omega
    simp only [entriesFuel, show (", ".data : List Char) = [',', ' '] from rfl]
      at h2 hlen ⊢
    omega

end

/-- `json.loads` inverts `json.dumps` on serializable values. -/
theorem jsonLoads_dumpsV (v : Value) (hser : jsonSerializable v = true) :
    jsonLoads (dumpsV v) = some v := by
  have hfuel : jsonFuel v ≤ 5 * (dumpsV v).length + 5 :=
    le_trans (jsonFuel_le v) (by omega)
  have hrt := rt_pVal v hser (5 * (dumpsV v).length + 5) [] hfuel numBoundary_nil
  rw [List.append_nil] at hrt
  rw [jsonLoads, hrt]
  rfl

/-- UTF-8 of an ASCII character is the single byte. -/
theorem utf8Char_ascii {c : Char} (h : c.toNat < 128) : utf8Char c = [c.toNat] := by
  simp [utf8Char, h]

/-- One ASCII byte decodes to its character. -/
theorem utf8Decode_ascii_cons (b : Nat) (rest : List Nat) (h : b < 128) :
    utf8Decode (b :: rest) =
      (utf8Decode rest).map fun cs => Char.ofNat b :: cs := by
  simp only [utf8Decode, if_pos h]

/-- UTF-8 round trip on ASCII character sequences. -/
theorem utf8Decode_encode_ascii :
    ∀ cs : List Char, (∀ c ∈ cs, c.toNat < 128) →
      utf8Decode (utf8Encode cs) = some cs := by
  intro cs
  induction cs with
  | nil => intro _; rfl
  | cons c rest ih =>
    intro h
    have hc : c.toNat < 128 := h c (by simp)
    rw [utf8Encode, utf8Char_ascii hc, List.cons_append, List.nil_append,
      utf8Decode_ascii_cons c.toNat _ hc, ih fun d hd => h d (by simp [hd]),
      Char.ofNat_toNat]
    rfl

/-- UTF-8 bytes are below 256 (ASCII case). -/
theorem utf8Encode_ascii_bytes (cs : List Char) (h : ∀ c ∈ cs, c.toNat < 128) :
    ∀ b ∈ utf8Encode cs, b < 256 := by
  induction cs with
  | nil => intro b hb; simp [utf8Encode] at hb
  | cons c rest ih =>
    intro b hb
    rw [utf8Encode, utf8Char_ascii (h c (by simp))] at hb
    rcases List.mem_append.mp hb with hb | hb
    · simp at hb
      subst hb
      have := h c (by simp)
      omega
    · exact ih (fun d hd => h d (by simp [hd])) b hb

/-- Alphabet characters decode to their index. -/
theorem b64Val_chr : ∀ n < 64, b64Val (b64Chr n) = some n := by decide

/-- Every produced base64 character is in the alphabet. -/
theorem b64Chr_mem (n : Nat) : b64Chr n ∈ b64Alpha := by
  by_cases h : n < 64
  · exact (by decide : ∀ m < 64, b64Chr m ∈ b64Alpha) n h
  · have hlen : b64Alpha.length = 64 := by decide
    have : b64Chr n = 'A' := by
      simp only [b64Chr]
      rw [List.getD_eq_default]
      omega
    rw [this]
    decide

/-- No produced base64 character is the padding character. -/
theorem b64Chr_ne_pad (n : Nat) : b64Chr n ≠ '=' := by
  by_cases h : n < 64
  · exact (by decide : ∀ m < 64, b64Chr m ≠ '=') n h
  · have hlen : b64Alpha.length = 64 := by decide
    have : b64Chr n = 'A' := by
      simp only [b64Chr]
      rw [List.getD_eq_default]
      omega
    rw [this]
    decide

/-- The urlsafe translation round-trips on encoder output characters. -/
theorem fromUrlsafe_toUrlsafe {c : Char} (h : c ∈ b64Alpha ∨ c = '=') :
    fromUrlsafe (toUrlsafe c) = c := by
  rcases h with h | h
  · exact (by decide : ∀ c ∈ b64Alpha, fromUrlsafe (toUrlsafe c) = c) c h
  · subst h
    decide

/-- Characters of the base64 encoding of a byte sequence. -/
theorem b64EncodeBytes_chars :
    ∀ bs, ∀ c ∈ b64EncodeBytes bs, c ∈ b64Alpha ∨ c = '='
  | [] => by intro c hc; simp [b64EncodeBytes] at hc
  | [b1] => by
    intro c hc
    simp only [b64EncodeBytes, List.mem_cons, List.not_mem_nil, or_false] at hc
    rcases hc with rfl | rfl | rfl | rfl
    · exact Or.inl (b64Chr_mem _)
    · exact Or.inl (b64Chr_mem _)
    · exact Or.inr rfl
    · exact Or.inr rfl
  | [b1, b2] => by
    intro c hc
    simp only [b64EncodeBytes, List.mem_cons, List.not_mem_nil, or_false] at hc
    rcases hc with rfl | rfl | rfl | rfl
    · exact Or.inl (b64Chr_mem _)
    · exact Or.inl (b64Chr_mem _)
    · exact Or.inl (b64Chr_mem _)
    · exact Or.inr rfl
  | b1 :: b2 :: b3 :: rest => by
    intro c hc
    simp only [b64EncodeBytes, List.mem_cons] at hc
    rcases hc with rfl | rfl | rfl | rfl | hc
    · exact Or.inl (b64Chr_mem _)
    · exact Or.inl (b64Chr_mem _)
    · exact Or.inl (b64Chr_mem _)
    · exact Or.inl (b64Chr_mem _)
    · exact b64EncodeBytes_chars rest c hc

/-- Translating to the urlsafe alphabet and back is the identity on
encoder output. -/
theorem map_fromUrlsafe_toUrlsafe :
    ∀ L : List Char, (∀ c ∈ L, c ∈ b64Alpha ∨ c = '=') →
      (L.map toUrlsafe).map fromUrlsafe = L := by
  intro L
  induction L with
  | nil => intro _; rfl
  | cons c rest ih =>
    intro h
    simp only [List.map_cons, fromUrlsafe_toUrlsafe (h c (by simp))]
    rw [ih fun d hd => h d (by simp [hd])]

/-- The alphabet-or-padding filter keeps encoder output unchanged. -/
theorem filter_b64_id :
    ∀ L : List Char, (∀ c ∈ L, c ∈ b64Alpha ∨ c = '=') →
      (L.filter fun c => c ∈ b64Alpha || c = '=') = L := by
  intro L h
  apply List.filter_eq_self.mpr
  intro c hc
  rcases h c hc with hm | hm
  · simp [hm]
  · simp [hm]

/-- Base64 decoding inverts encoding on byte sequences. -/
theorem b64DecodeQuads_encode :
    ∀ bs, (∀ b ∈ bs, b < 256) → b64DecodeQuads (b64EncodeBytes bs) = some bs
  | [] => by intro _; rfl
  | [b1] => by
    intro hb
    have h1 : b1 < 256 := hb b1 (by simp)
    rw [show b64EncodeBytes [b1] =
      [b64Chr (b1 / 4), b64Chr (b1 % 4 * 16), '=', '='] from rfl]
    rw [show b64DecodeQuads [b64Chr (b1 / 4), b64Chr (b1 % 4 * 16), '=', '='] =
      (b64Val (b64Chr (b1 / 4))).bind fun v1 =>
        (b64Val (b64Chr (b1 % 4 * 16))).map fun v2 => [v1 * 4 + v2 / 16] from by
      simp [b64DecodeQuads]]
    rw [b64Val_chr _ (by omega), b64Val_chr _ (by omega)]
    simp only [Option.some_bind, Option.map_some']
    rw [show b1 / 4 * 4 + b1 % 4 * 16 / 16 = b1 from by omega]
  | [b1, b2] => by
    intro hb
    have h1 : b1 < 256 := hb b1 (by simp)
    have h2 : b2 < 256 := hb b2 (by simp)
    rw [show b64EncodeBytes [b1, b2] =
      [b64Chr (b1 / 4), b64Chr (b1 % 4 * 16 + b2 / 16), b64Chr (b2 % 16 * 4), '='] from rfl]
    rw [show b64DecodeQuads
        [b64Chr (b1 / 4), b64Chr (b1 % 4 * 16 + b2 / 16), b64Chr (b2 % 16 * 4), '='] =
      (b64Val (b64Chr (b1 / 4))).bind fun v1 =>
        (b64Val (b64Chr (b1 % 4 * 16 + b2 / 16))).bind fun v2 =>
          (b64Val (b64Chr (b2 % 16 * 4))).map fun v3 =>
            [v1 * 4 + v2 / 16, v2 % 16 * 16 + v3 / 4] from by
      simp [b64DecodeQuads, b64Chr_ne_pad]]
    rw [b64Val_chr _ (by omega), b64Val_chr _ (by omega), b64Val_chr _ (by omega)]
    simp only [Option.some_bind, Option.map_some']
    rw [show b1 / 4 * 4 + (b1 % 4 * 16 + b2 / 16) / 16 = b1 from by omega,
      show (b1 % 4 * 16 + b2 / 16) % 16 * 16 + b2 % 16 * 4 / 4 = b2 from by omega]
  | b1 :: b2 :: b3 :: rest => by
    intro hb
    have h1 : b1 < 256 := hb b1 (by simp)
    have h2 : b2 < 256 := hb b2 (by simp)
    have h3 : b3 < 256 := hb b3 (by simp)
    have hrec := b64DecodeQuads_encode rest fun b hbm => hb b (by simp [hbm])
    rw [show b64EncodeBytes (b1 :: b2 :: b3 :: rest) =
      b64Chr (b1 / 4) :: b64Chr (b1 % 4 * 16 + b2 / 16) ::
      b64Chr (b2 % 16 * 4 + b3 / 64) :: b64Chr (b3 % 64) ::
      b64EncodeBytes rest from rfl]
    rw [show b64DecodeQuads (b64Chr (b1 / 4) :: b64Chr (b1 % 4 * 16 + b2 / 16) ::
        b64Chr (b2 % 16 * 4 + b3 / 64) :: b64Chr (b3 % 64) ::
        b64EncodeBytes rest) =
      (b64Val (b64Chr (b1 / 4))).bind fun v1 =>
        (b64Val (b64Chr (b1 % 4 * 16 + b2 / 16))).bind fun v2 =>
          (b64Val (b64Chr (b2 % 16 * 4 + b3 / 64))).bind fun v3 =>
            (b64Val (b64Chr (b3 % 64))).bind fun v4 =>
              (b64DecodeQuads (b64EncodeBytes rest)).map fun bs =>
                (v1 * 4 + v2 / 16) :: (v2 % 16 * 16 + v3 / 4) ::
                  (v3 % 4 * 64 + v4) :: bs from by
      simp [b64DecodeQuads, b64Chr_ne_pad]]
    rw [b64Val_chr _ (by omega), b64Val_chr _ (by omega), b64Val_chr _ (by omega),
      b64Val_chr _ (by omega), hrec]
    simp only [Option.some_bind, Option.map_some']
    rw [show b1 / 4 * 4 + (b1 % 4 * 16 + b2 / 16) / 16 = b1 from by omega,
      show (b1 % 4 * 16 + b2 / 16) % 16 * 16 + (b2 % 16 * 4 + b3 / 64) / 4 = b2
        from by omega,
      show (b2 % 16 * 4 + b3 / 64) % 4 * 64 + b3 % 64 = b3 from by omega]

/-- Hex digit characters are ASCII. -/
theorem hexDigitL_ascii : ∀ m < 16, (hexDigitL m).toNat < 128 := by decide

/-- Four-digit hex escapes are ASCII. -/
theorem hex4_ascii (n : Nat) : ∀ d ∈ hex4 n, d.toNat < 128 := by
  intro d hd
  rw [hex4] at hd
  simp at hd
  rcases hd with rfl | rfl | rfl | rfl <;> exact hexDigitL_ascii _ (by omega)

/-- The JSON escape of any character is ASCII (this is what
`ensure_ascii=True` guarantees). -/
theorem escChar_ascii (c : Char) : ∀ d ∈ escChar c, d.toNat < 128 := by
  intro d hd
  by_cases h1 : c = '"'
  · subst h1
    rw [show escChar '"' = ['\\', '"'] from rfl] at hd
    simp at hd
    rcases hd with rfl | rfl <;> decide
  · by_cases h2 : c = '\\'
    · subst h2
      rw [show escChar '\\' = ['\\', '\\'] from rfl] at hd
      simp at hd
      subst hd
      decide
    · by_cases h3 : c.toNat = 8
      · rw [show escChar c = ['\\', 'b'] from by simp [escChar, h1, h2, h3]] at hd
        simp at hd
        rcases hd with rfl | rfl <;> decide
      · by_cases h4 : c.toNat = 9
        · rw [show escChar c = ['\\', 't'] from by
            simp [escChar, h1, h2, h3, h4]] at hd
          simp at hd
          rcases hd with rfl | rfl <;> decide
        · by_cases h5 : c.toNat = 10
          · rw [show escChar c = ['\\', 'n'] from by
              simp [escChar, h1, h2, h3, h4, h5]] at hd
            simp at hd
            rcases hd with rfl | rfl <;> decide
          · by_cases h6 : c.toNat = 12
            · rw [show escChar c = ['\\', 'f'] from by
                simp [escChar, h1, h2, h3, h4, h5, h6]] at hd
              simp at hd
              rcases hd with rfl | rfl <;> decide
            · by_cases h7 : c.toNat = 13
              · rw [show escChar c = ['\\', 'r'] from by
                  simp [escChar, h1, h2, h3, h4, h5, h6, h7]] at hd
                simp at hd
                rcases hd with rfl | rfl <;> decide
              · by_cases h8 : (c.toNat < 32 || 126 < c.toNat) = true
                · by_cases h9 : c.toNat < 65536
                  · have hesc : escChar c = '\\' :: 'u' :: hex4 c.toNat := by
                      simp [escChar, h1, h2, h3, h4, h5, h6, h7, h8, h9]
                    rw [hesc] at hd
                    rcases List.mem_cons.mp hd with rfl | hd2
                    · decide
                    · rcases List.mem_cons.mp hd2 with rfl | hd3
                      · decide
                      · exact hex4_ascii _ d hd3
                  · have hesc : escChar c =
                        '\\' :: 'u' :: hex4 (55296 + (c.toNat - 65536) / 1024) ++
                        ('\\' :: 'u' :: hex4 (56320 + (c.toNat - 65536) % 1024)) := by
                      simp [escChar, h1, h2, h3, h4, h5, h6, h7, h8, h9]
                    rw [hesc] at hd
                    rcases List.mem_append.mp hd with hd | hd
                    · rcases List.mem_cons.mp hd with rfl | hd2
                      · decide
                      · rcases List.mem_cons.mp hd2 with rfl | hd3
                        · decide
                        · exact hex4_ascii _ d hd3
                    · rcases List.mem_cons.mp hd with rfl | hd2
                      · decide
                      · rcases List.mem_cons.mp hd2 with rfl | hd3
                        · decide
                        · exact hex4_ascii _ d hd3
                · have hesc : escChar c = [c] := by
                    simp [escChar, h1, h2, h3, h4, h5, h6, h7, h8]
                  rw [hesc] at hd
                  simp at hd
                  rw [hd]
                  have h8f : (c.toNat < 32 || 126 < c.toNat) = false :=
                    Bool.of_not_eq_true h8
                  simp only [Bool.or_eq_false_iff, decide_eq_false_iff_not] at h8f
                  omega

/-- Escaped strings are ASCII. -/
theorem escStr_ascii : ∀ cs, ∀ d ∈ escStr cs, d.toNat < 128 := by
  intro cs
  induction cs with
  | nil => intro d hd; simp [escStr] at hd
  | cons c rest ih =>
    intro d hd
    rw [escStr] at hd
    rcases List.mem_append.mp hd with hd | hd
    · exact escChar_ascii c d hd
    · exact ih d hd

/-- Decimal digits are ASCII. -/
theorem natDec_ascii (n : Nat) : ∀ d ∈ natDec n, d.toNat < 128 := by
  intro d hd
  have := natDec_digits n d hd
  simp only [isDigitC, Bool.and_eq_true, decide_eq_true_eq] at this
  omega

/-- Integer renderings are ASCII. -/
theorem intDec_ascii (n : Int) : ∀ d ∈ intDec n, d.toNat < 128 := by
  intro d hd
  by_cases hn : n < 0
  · simp only [intDec, hn, if_true, List.mem_cons] at hd
    rcases hd with rfl | hd
    · decide
    · exact natDec_ascii _ d hd
  · simp only [intDec, hn, if_false] at hd
    exact natDec_ascii _ d hd

/-- Joined renderings are ASCII when the separator and all pieces are. -/
theorem joinSep_ascii (sep : List Char) (hsep : ∀ d ∈ sep, d.toNat < 128) :
    ∀ pieces, (∀ p ∈ pieces, ∀ d ∈ p, d.toNat < 128) →
      ∀ d ∈ joinSep sep pieces, d.toNat < 128
  | [] => by intro _ d hd; simp [joinSep] at hd
  | [x] => by
    intro hp d hd
    simp only [joinSep] at hd
    exact hp x (by simp) d hd
  | x :: y :: rest => by
    intro hp d hd
    simp only [joinSep] at hd
    rcases List.mem_append.mp hd with hd | hd
    · rcases List.mem_append.mp hd with hd | hd
      · exact hp x (by simp) d hd
      · exact hsep d hd
    · exact joinSep_ascii sep hsep (y :: rest) (fun p hpm => hp p (by simp [hpm])) d hd

mutual

/-- `json.dumps` output is pure ASCII (the `ensure_ascii=True` default). -/
theorem dumpsV_ascii : ∀ v, ∀ d ∈ dumpsV v, d.toNat < 128
  | .vnull => by intro d hd; simp [dumpsV] at hd; rcases hd with rfl | rfl | rfl | rfl <;> decide
  | .vbool true => by intro d hd; simp [dumpsV] at hd; rcases hd with rfl | rfl | rfl | rfl <;> decide
  | .vbool false => by
    intro d hd
    simp [dumpsV] at hd
    rcases hd with rfl | rfl | rfl | rfl | rfl <;> decide
  | .oid s => by intro d hd; simp [dumpsV] at hd; rcases hd with rfl | rfl | rfl | rfl <;> decide
  | .vint n => by
    intro d hd
    rw [show dumpsV (.vint n) = intDec n from rfl] at hd
    exact intDec_ascii n d hd
  | .vstr s => by
    intro d hd
    rw [show dumpsV (.vstr s) = '"' :: escStr s.data ++ ['"'] from rfl] at hd
    simp only [List.cons_append, List.mem_cons] at hd
    rcases hd with rfl | hd
    · decide
    · rcases List.mem_append.mp hd with hd | hd
      · exact escStr_ascii s.data d hd
      · simp at hd; subst hd; decide
  | .vlist xs => by
    intro d hd
    rw [show dumpsV (.vlist xs) =
      '[' :: joinSep ", ".data (dumpsItems xs) ++ [']'] from rfl] at hd
    simp only [List.cons_append, List.mem_cons] at hd
    rcases hd with rfl | hd
    · decide
    · rcases List.mem_append.mp hd with hd | hd
      · exact joinSep_ascii ", ".data (by decide) (dumpsItems xs)
          (dumpsItems_ascii xs) d hd
      · simp at hd; subst hd; decide
  | .vdict es => by
    intro d hd
    rw [show dumpsV (.vdict es) =
      '{' :: joinSep ", ".data (dumpsEntries es) ++ ['}'] from rfl] at hd
    simp only [List.cons_append, List.mem_cons] at hd
    rcases hd with rfl | hd
    · decide
    · rcases List.mem_append.mp hd with hd | hd
      · exact joinSep_ascii ", ".data (by decide) (dumpsEntries es)
          (dumpsEntries_ascii es) d hd
      · simp at hd; subst hd; decide

/-- Item renderings are ASCII. -/
theorem dumpsItems_ascii : ∀ xs, ∀ p ∈ dumpsItems xs, ∀ d ∈ p, d.toNat < 128
  | [] => by intro p hp; simp [dumpsItems] at hp
  | v :: rest => by
    intro p hp d hd
    simp only [dumpsItems, List.mem_cons] at hp
    rcases hp with rfl | hp
    · exact dumpsV_ascii v d hd
    · exact dumpsItems_ascii rest p hp d hd

/-- Entry renderings are ASCII. -/
theorem dumpsEntries_ascii : ∀ es, ∀ p ∈ dumpsEntries es, ∀ d ∈ p, d.toNat < 128
  | [] => by intro p hp; simp [dumpsEntries] at hp
  | (k, v) :: rest => by
    intro p hp d hd
    simp only [dumpsEntries, List.mem_cons] at hp
    rcases hp with rfl | hp
    · simp only [List.cons_append, List.mem_cons] at hd
      rcases hd with rfl | hd
      · decide
      · rcases List.mem_append.mp hd with hd | hd
        · rcases List.mem_append.mp hd with hd | hd
          · exact escStr_ascii k.data d hd
          · simp at hd
            rcases hd with rfl | rfl | rfl <;> decide
        · exact dumpsV_ascii v d hd
    · exact dumpsEntries_ascii rest p hp d hd

end

/-- Full cursor-token round trip: URL-safe base64 of the UTF-8 bytes of
a `json.dumps` rendering decodes, UTF-8-decodes and JSON-parses back to
the original serializable value. -/
theorem parseCursor_encodeToken (v : Value) (hser : jsonSerializable v = true) :
    parseCursor (encodeToken (dumpsV v)) = some v := by
  have hascii := dumpsV_ascii v
  have hbytes := utf8Encode_ascii_bytes (dumpsV v) hascii
  have hchars := b64EncodeBytes_chars (utf8Encode (dumpsV v))
  rw [parseCursor, encodeToken,
    show (String.mk (urlsafeB64Encode (utf8Encode (dumpsV v)))) =
      ⟨urlsafeB64Encode (utf8Encode (dumpsV v))⟩ from rfl]
  rw [urlsafeB64Decode]
  rw [show (String.mk (urlsafeB64Encode (utf8Encode (dumpsV v)))).data =
    urlsafeB64Encode (utf8Encode (dumpsV v)) from rfl]
  rw [urlsafeB64Encode, map_fromUrlsafe_toUrlsafe _ hchars, filter_b64_id _ hchars,
    b64DecodeQuads_encode _ hbytes, Option.some_bind,
    utf8Decode_encode_ascii _ hascii, Option.some_bind, jsonLoads_dumpsV v hser]

/-- Binding a success in `Except` applies the continuation. -/
theorem exBind_ok {ε α β : Type} (a : α) (f : α → Except ε β) :
    (Except.ok a >>= f : Except ε β) = f a := rfl

/-- Binding a failure in `Except` propagates it. -/
theorem exBind_error {ε α β : Type} (e : ε) (f : α → Except ε β) :
    (Except.error e >>= f : Except ε β) = .error e := rfl

/-- A successful bind factors into a successful first stage. -/
theorem exBind_ok_inv {ε α β : Type} {m : Except ε α} {f : α → Except ε β} {b : β}
    (h : (m >>= f) = .ok b) : ∃ a, m = .ok a ∧ f a = .ok b := by
  cases m with
  | error e => rw [exBind_error] at h; exact Except.noConfusion h
  | ok a => exact ⟨a, rfl, h⟩

/-- Evaluation of `get_documents_cursor` once the query augmentation is
known to succeed. -/
theorem gdc_eval (coll : List Doc) (query : List (String × Value))
    (cursor : Option String) (limit : Nat) (sf : String) (dir : Int)
    (fresh : String) (mq : List (String × Value))
    (hbq : buildMongoQuery query (decodedCursor cursor) sf dir fresh = .ok mq) :
    get_documents_cursor coll query cursor limit sf dir fresh =
      (do
        let fetched := (findSorted coll mq sf dir).take (limit + 1)
        let has_more := decide (limit < fetched.length)
        let documents := if has_more then fetched.dropLast else fetched
        let next_cursor ←
          if has_more && !documents.isEmpty then
            match documents.getLast? with
            | some last => do
              let cdata ← cursor_record last sf
              let tok ← encode_cursor_token cdata
              pure (some tok)
            | none => pure none
          else pure none
        pure { documents := documents, next_cursor := next_cursor,
               has_more := has_more, limit := limit }) := by
  unfold get_documents_cursor
  rw [hbq, exBind_ok]

/-- A non-empty list has a last element. -/
theorem getLast?_of_not_empty {α : Type} {l : List α} (h : l.isEmpty = false) :
    ∃ x, l.getLast? = some x := by
  cases l with
  | nil => exact absurd h (by simp)
  | cons a t => exact ⟨(a :: t).getLast (by simp), List.getLast?_eq_getLast _ _⟩

/-- Characterisation of a successful `get_documents_cursor` call: the
page is the trimmed `limit + 1`-row fetch under the augmented query,
`has_more` records whether trimming happened, and a continuation token
is present exactly when the page was trimmed and is non-empty. -/
theorem gdc_ok_shape (coll : List Doc) (query : List (String × Value))
    (cursor : Option String) (limit : Nat) (sf : String) (dir : Int)
    (fresh : String) (mq : List (String × Value)) (p : Page)
    (hbq : buildMongoQuery query (decodedCursor cursor) sf dir fresh = .ok mq)
    (hp : get_documents_cursor coll query cursor limit sf dir fresh = .ok p) :
    p.has_more = decide (limit < ((findSorted coll mq sf dir).take (limit + 1)).length) ∧
    p.documents = (if limit < ((findSorted coll mq sf dir).take (limit + 1)).length
                   then ((findSorted coll mq sf dir).take (limit + 1)).dropLast
                   else (findSorted coll mq sf dir).take (limit + 1)) ∧
    p.limit = limit ∧
    p.next_cursor.isSome = (p.has_more && !p.documents.isEmpty) := by
  rw [gdc_eval coll query cursor limit sf dir fresh mq hbq] at hp
  by_cases hm : limit < ((findSorted coll mq sf dir).take (limit + 1)).length
  · simp only [hm, decide_True, Bool.true_and, if_true] at hp
    by_cases hd : ((findSorted coll mq sf dir).take (limit + 1)).dropLast.isEmpty
    · rw [hd] at hp
      simp only [Bool.not_true, Bool.false_eq_true, if_false] at hp
      have hpq := Except.ok.inj hp
      subst hpq
      exact ⟨(decide_eq_true hm).symm, (if_pos hm).symm, rfl, by simp [hd]⟩
    · rw [Bool.not_eq_true] at hd
      rw [hd] at hp
      simp only [Bool.not_false, if_true] at hp
      obtain ⟨last, hlast⟩ := getLast?_of_not_empty hd
      rw [hlast] at hp
      obtain ⟨cdata, hcd, hp⟩ := exBind_ok_inv hp
      obtain ⟨tok, htok, hp⟩ := exBind_ok_inv hp
      have hpq := Except.ok.inj hp
      subst hpq
      exact ⟨(decide_eq_true hm).symm, (if_pos hm).symm, rfl, by simp [hd]⟩
  · simp only [hm, decide_False, Bool.false_and, if_false] at hp
    have hpq := Except.ok.inj hp
    subst hpq
    exact ⟨(decide_eq_false hm).symm, (if_neg hm).symm, rfl, by simp⟩

/-- C3: for every successful cursor-mode page the document count never
exceeds the limit, but `has_more` records whether strictly more than
`limit` rows matched the augmented query, not whether the page is full:
a full page that exhausts the matches reports `has_more = false`. -/
theorem C3_page_trim_has_more (coll : List Doc) (query : List (String × Value))
    (cursor : Option String) (limit : Nat) (sf : String) (dir : Int)
    (fresh : String) (mq : List (String × Value)) (p : Page)
    (hbq : buildMongoQuery query (decodedCursor cursor) sf dir fresh = .ok mq)
    (hp : get_documents_cursor coll query cursor limit sf dir fresh = .ok p) :
    p.documents.length ≤ limit ∧
    (p.has_more = true ↔ limit < (findSorted coll mq sf dir).length) ∧
    (p.has_more = true → p.documents.length = limit) := by
  obtain ⟨hhm, hdocs, -, -⟩ := gdc_ok_shape coll query cursor limit sf dir fresh mq p hbq hp
  have hlen : ((findSorted coll mq sf dir).take (limit + 1)).length
      = min (limit + 1) (findSorted coll mq sf dir).length := List.length_take _ _
  have hiff : (p.has_more = true) ↔ limit < (findSorted coll mq sf dir).length := by
    rw [hhm]
    constructor
    · intro h
      have h2 := of_decide_eq_true h
      rw [hlen] at h2
      omega
    · intro h
      apply decide_eq_true
      rw [hlen]
      omega
  by_cases hm : limit < ((findSorted coll mq sf dir).take (limit + 1)).length
  · rw [if_pos hm] at hdocs
    have hdl : p.documents.length = limit := by
      rw [hdocs, List.length_dropLast, hlen]
      rw [hlen] at hm
      omega
    exact ⟨by omega, hiff, fun _ => hdl⟩
  · rw [if_neg hm] at hdocs
    have hdl : p.documents.length ≤ limit := by
      rw [hdocs, hlen]
      rw [hlen] at hm
      omega
    refine ⟨hdl, hiff, fun hh => ?_⟩
    rw [hhm] at hh
    exact absurd (of_decide_eq_true hh) hm

/-- An exactly-full last page: two matching documents, limit 2, so the
page holds `limit` rows yet `has_more` is false, refuting
`has_more == (len(rows) == limit)`. -/
theorem C3_full_last_page :
    get_documents_cursor
      [[("_id", Value.oid "aaaaaaaaaaaaaaaaaaaaaaaa")],
       [("_id", Value.oid "bbbbbbbbbbbbbbbbbbbbbbbb")]] [] none 2 "_id" 1 ""
      = .ok (Page.mk
          [[("_id", Value.oid "aaaaaaaaaaaaaaaaaaaaaaaa")],
           [("_id", Value.oid "bbbbbbbbbbbbbbbbbbbbbbbb")]] none false 2) := rfl

/-- Concrete instance of the page-trim property on the empty store. -/
theorem C3_page_trim_has_more_witness :
    (Page.mk [] none false 5).documents.length ≤ 5 ∧
    ((Page.mk [] none false 5).has_more = true ↔ 5 < (findSorted [] [] "_id" 1).length) ∧
    ((Page.mk [] none false 5).has_more = true → (Page.mk [] none false 5).documents.length = 5) :=
  C3_page_trim_has_more [] [] none 5 "_id" 1 "" [] (Page.mk [] none false 5) (by rfl) (by rfl)

/-- C9: with a positive limit, a successful cursor-mode page carries a
continuation token exactly when it reports `has_more`. -/
theorem C9_next_cursor_iff_has_more (coll : List Doc) (query : List (String × Value))
    (cursor : Option String) (limit : Nat) (sf : String) (dir : Int)
    (fresh : String) (mq : List (String × Value)) (p : Page)
    (hlim : 1 ≤ limit)
    (hbq : buildMongoQuery query (decodedCursor cursor) sf dir fresh = .ok mq)
    (hp : get_documents_cursor coll query cursor limit sf dir fresh = .ok p) :
    p.next_cursor.isSome = p.has_more := by
  obtain ⟨hhm, hdocs, -, hnc⟩ := gdc_ok_shape coll query cursor limit sf dir fresh mq p hbq hp
  rw [hnc]
  by_cases hm : limit < ((findSorted coll mq sf dir).take (limit + 1)).length
  · have hht : p.has_more = true := by rw [hhm]; exact decide_eq_true hm
    rw [if_pos hm] at hdocs
    have hlen := List.length_take (limit + 1) (findSorted coll mq sf dir)
    have hdl : p.documents.length = limit := by
      rw [hdocs, List.length_dropLast, hlen]
      rw [hlen] at hm
      omega
    have hne : p.documents.isEmpty = false := by
      cases hds : p.documents with
      | nil =>
        rw [hds] at hdl
        simp at hdl
        omega
      | cons a t => rfl
    rw [hht, hne]
    rfl
  · have hhf : p.has_more = false := by rw [hhm]; exact decide_eq_false hm
    rw [hhf]
    rfl

/-- Concrete instance of the token-iff-more property on the empty store. -/
theorem C9_next_cursor_iff_has_more_witness :
    (Page.mk [] none false 5).next_cursor.isSome = (Page.mk [] none false 5).has_more :=
  C9_next_cursor_iff_has_more [] [] none 5 "_id" 1 "" [] (Page.mk [] none false 5)
    (by decide) (by rfl) (by rfl)

/-- C4: the identifier normaliser is idempotent: a value it converts is
a native identifier and no longer a 24-hex-character string, so a
second pass finds no further candidates anywhere in the tree. -/
theorem C4_normalizer_idempotent (f : Value) :
    convert_object_ids_in_query (convert_object_ids_in_query f) =
      convert_object_ids_in_query f :=
  convert_object_ids_in_query_idem f

/-- C2: a well-formed base64 JSON cursor token whose `_id` is not a
valid 24-hex identifier decodes fine, but then the unguarded
`ObjectId(last_doc.get("_id"))` call raises `InvalidId` out of
`get_documents_cursor`: invalid cursors are not always treated as
absent. -/
theorem C2_invalid_cursor_id_raises :
    parseCursor "eyJfaWQiOiAienp6In0=" = some (.vdict [("_id", .vstr "zzz")]) ∧
    get_documents_cursor [] [] (some "eyJfaWQiOiAienp6In0=") 10 "_id" 1
        "cccccccccccccccccccccccc" = .error .invalidId :=
  ⟨rfl, rfl⟩

/-- A collection whose every document carries a `name` field still
yields an empty inferred schema: no document is ever read. -/
theorem C6_sampling_counterexample :
    infer_schema [[("name", Value.vstr "a")], [("name", Value.vstr "b")]] 10 none
        = .ok emptySchemaR ∧
    dLookup emptySchemaR.fields "name" = none :=
  ⟨rfl, rfl⟩

/-- C6 (amended): `infer_schema` never samples: its result is
independent of the collection and of the sample size, and with no
Pydantic model it is always the empty schema. -/
theorem C6_no_sampling (coll coll' : List Doc) (n n' : Nat)
    (pm : Option (Except Unit SchemaR)) :
    infer_schema coll n pm = infer_schema coll' n' pm ∧
    infer_schema coll n none = .ok emptySchemaR :=
  ⟨rfl, rfl⟩

/-- C7: both service facades perform the operation with the requested
limit clamped to the hard ceiling of 200 rather than rejecting it:
the reported limit is the clamped value, requests above 200 run at
200, requests at or below 200 run unchanged, and the search page never
exceeds the clamped limit. -/
theorem C7_limit_clamped_to_ceiling (coll : List Doc) (skip limit0 : Nat)
    (query : Option String) (sort_field : Option String) (sort_order : String)
    (cursor : Option String) (use_cursor : Bool) (fields : Option (List String))
    (searchableFields : List String) (fresh : String)
    (q2 : List (String × Value)) (r : ListResult)
    (hr : list_documents_optimized coll skip limit0 query sort_field sort_order cursor
        use_cursor fields searchableFields fresh = .ok r) :
    (r.limitVal = clampLimit limit0 ∧
     (200 < limit0 → r.limitVal = 200) ∧ (limit0 ≤ 200 → r.limitVal = limit0)) ∧
    (search_documents_optimized coll q2 skip limit0 sort_field sort_order fields).limit
        = clampLimit limit0 ∧
    (search_documents_optimized coll q2 skip limit0 sort_field sort_order fields).documents.length
        ≤ clampLimit limit0 := by
  have hlv : r.limitVal = clampLimit limit0 := by
    unfold list_documents_optimized at hr
    cases use_cursor with
    | false =>
      simp only [Bool.false_eq_true, if_false] at hr
      have hq := Except.ok.inj hr
      subst hq
      rfl
    | true =>
      simp only [eq_self_iff_true, if_true] at hr
      obtain ⟨cres, hcres, hr⟩ := exBind_ok_inv hr
      have hq := Except.ok.inj hr
      subst hq
      rfl
  refine ⟨⟨hlv, ?_, ?_⟩, rfl, ?_⟩
  · intro h
    rw [hlv]
    unfold clampLimit
    rw [if_pos h]
  · intro h
    rw [hlv]
    unfold clampLimit
    rw [if_neg (by omega)]
  · show (search_documents_optimized coll q2 skip limit0 sort_field sort_order fields).documents.length
        ≤ clampLimit limit0
    unfold search_documents_optimized
    simp only [List.length_map, List.length_take]
    omega

/-- Concrete instance of the clamping property at a request of 500. -/
theorem C7_limit_clamped_to_ceiling_witness :
    ((ListResult.offsetMode (OffsetResult.mk [] 0 0 200)).limitVal = clampLimit 500 ∧
     (200 < 500 → (ListResult.offsetMode (OffsetResult.mk [] 0 0 200)).limitVal = 200) ∧
     (500 ≤ 200 → (ListResult.offsetMode (OffsetResult.mk [] 0 0 200)).limitVal = 500)) ∧
    (search_documents_optimized [] [] 0 500 none "asc" none).limit = clampLimit 500 ∧
    (search_documents_optimized [] [] 0 500 none "asc" none).documents.length ≤ clampLimit 500 :=
  C7_limit_clamped_to_ceiling [] 0 500 none none "asc" none false none [] "" []
    (ListResult.offsetMode (OffsetResult.mk [] 0 0 200)) (by rfl)

/-- C5: when the registered Pydantic model yields a non-empty report,
`get_collection_schema` returns exactly that report, the registry
source is never consulted (the outcome is the same whatever the
registry holds), and a model that raises falls through to behave
exactly like an absent model. -/
theorem C5_model_report_wins (coll : List Doc) (n : Nat) (s : SchemaR)
    (api api' : Option (Except Unit SchemaR)) (e : Unit)
    (hs : s.fields ≠ []) :
    get_collection_schema coll n (some (.ok s)) api = s ∧
    get_collection_schema coll n (some (.ok s)) api
      = get_collection_schema coll n (some (.ok s)) api' ∧
    get_collection_schema coll n (some (.error e)) api
      = get_collection_schema coll n none api := by
  have h0 : s.fields.isEmpty = false := by
    cases hsf : s.fields with
    | nil => exact absurd hsf hs
    | cons a t => rfl
  have h1 : get_collection_schema coll n (some (.ok s)) api = s := by
    unfold get_collection_schema infer_schema
    simp only [h0, Bool.false_eq_true, if_false]
  have h2 : get_collection_schema coll n (some (.ok s)) api' = s := by
    unfold get_collection_schema infer_schema
    simp only [h0, Bool.false_eq_true, if_false]
  exact ⟨h1, h1.trans h2.symm, rfl⟩

/-- Concrete instance: a one-field model report beats a conflicting
registry report. -/
theorem C5_model_report_wins_witness :
    get_collection_schema [] 5 (some (.ok (SchemaR.mk [("a", Value.vstr "string")] 1 false)))
        (some (.ok (SchemaR.mk [("a", Value.vstr "integer")] 1 false)))
      = SchemaR.mk [("a", Value.vstr "string")] 1 false ∧
    get_collection_schema [] 5 (some (.ok (SchemaR.mk [("a", Value.vstr "string")] 1 false)))
        (some (.ok (SchemaR.mk [("a", Value.vstr "integer")] 1 false)))
      = get_collection_schema [] 5 (some (.ok (SchemaR.mk [("a", Value.vstr "string")] 1 false))) none ∧
    get_collection_schema [] 5 (some (.error ()))
        (some (.ok (SchemaR.mk [("a", Value.vstr "integer")] 1 false)))
      = get_collection_schema [] 5 none
        (some (.ok (SchemaR.mk [("a", Value.vstr "integer")] 1 false))) :=
  C5_model_report_wins [] 5 (SchemaR.mk [("a", Value.vstr "string")] 1 false)
    (some (.ok (SchemaR.mk [("a", Value.vstr "integer")] 1 false))) none ()
    (List.cons_ne_nil _ _)

/-- Inserting preserves membership. -/
theorem mem_insertOrd {α : Type} (le : α → α → Bool) (x : α) :
    ∀ (l : List α) (a : α), a ∈ insertOrd le x l ↔ a = x ∨ a ∈ l
  | [], a => by simp [insertOrd]
  | y :: ys, a => by
    simp only [insertOrd]
    by_cases h : le x y = true
    · rw [if_pos h]
      simp [List.mem_cons]
    · rw [if_neg h]
      simp only [List.mem_cons, mem_insertOrd le x ys a]
      tauto

/-- Sorting preserves membership. -/
theorem mem_sortSt {α : Type} (le : α → α → Bool) :
    ∀ (l : List α) (a : α), a ∈ sortSt le l ↔ a ∈ l
  | [], a => Iff.rfl
  | x :: xs, a => by
    simp only [sortSt, mem_insertOrd, mem_sortSt le xs a, List.mem_cons]

/-- A member of the optionally sorted list is a member of the list. -/
theorem mem_sortOpt {l : List Doc} {x : Doc} (so : Option (String × Int))
    (hx : x ∈ (match so with
               | some sd => sortSt (docLe sd.1 sd.2) l
               | none => l)) : x ∈ l := by
  cases so with
  | none => exact hx
  | some sd => exact (mem_sortSt _ l x).mp hx

/-- Serialization keeps the key sequence unchanged. -/
theorem serEntries_keys : ∀ es : List (String × Value),
    (serEntries es).map Prod.fst = es.map Prod.fst
  | [] => rfl
  | (k, v) :: rest => by
    simp only [serEntries, List.map_cons, serEntries_keys rest]

/-- A key of a serialized document is a key of the document. -/
theorem mem_serEntries_key {es : List (String × Value)} {e : String × Value}
    (he : e ∈ serEntries es) : e.1 ∈ es.map Prod.fst := by
  have hm : e.1 ∈ (serEntries es).map Prod.fst := List.mem_map_of_mem _ he
  rwa [serEntries_keys] at hm

/-- A key surviving the projection is a requested field or `_id`. -/
theorem projDoc_key_mem {fs : List String} {d : Doc} {k : String}
    (hk : k ∈ (projDoc fs d).map Prod.fst) : k ∈ fs ∨ k = "_id" := by
  obtain ⟨e, he, hke⟩ := List.mem_map.mp hk
  have hf := (List.mem_filter.mp he).2
  rw [Bool.or_eq_true] at hf
  rcases hf with h | h
  · exact Or.inl (hke ▸ of_decide_eq_true h)
  · exact Or.inr (hke ▸ eq_of_beq h)

/-- The projection never removes the `_id` entry. -/
theorem projDoc_lookup_id (fs : List String) (d : Doc) :
    dLookup (projDoc fs d) "_id" = dLookup d "_id" := by
  induction d with
  | nil => rfl
  | cons e rest ih =>
    obtain ⟨k, v⟩ := e
    by_cases hk : (k == "_id") = true
    · have hpred : (decide (k ∈ fs) || k == "_id") = true := by rw [hk, Bool.or_true]
      simp only [projDoc, List.filter_cons] at ih ⊢
      rw [if_pos hpred]
      simp only [dLookup, hk, if_true]
    · by_cases hmem : (decide (k ∈ fs)) = true
      · have hpred : (decide (k ∈ fs) || k == "_id") = true := by rw [hmem, Bool.true_or]
        simp only [projDoc, List.filter_cons] at ih ⊢
        rw [if_pos hpred]
        simp only [dLookup, hk, Bool.false_eq_true, if_false]
        exact ih
      · have hpred : (decide (k ∈ fs) || k == "_id") = false := by
          rw [Bool.not_eq_true] at hk hmem
          rw [hk, hmem]
          rfl
        simp only [projDoc, List.filter_cons] at ih ⊢
        rw [if_neg (by rw [hpred]; exact Bool.false_ne_true)]
        rw [ih]
        simp only [dLookup, hk, Bool.false_eq_true, if_false]

/-- C10: with a non-empty projection list every returned document of
`list_documents_optimized`, in either pagination mode, holds only
requested fields and `_id`, and the projection itself always keeps the
`_id` entry of any document that has one. -/
theorem C10_projection_only_requested_fields (coll : List Doc) (skip limit0 : Nat)
    (query : Option String) (sort_field : Option String) (sort_order : String)
    (cursor : Option String) (use_cursor : Bool) (fs : List String)
    (searchableFields : List String) (fresh : String) (r : ListResult)
    (hfs : fs ≠ [])
    (hr : list_documents_optimized coll skip limit0 query sort_field sort_order cursor
        use_cursor (some fs) searchableFields fresh = .ok r) :
    (∀ d ∈ r.documents, ∀ e ∈ d, e.1 ∈ fs ∨ e.1 = "_id") ∧
    (∀ d : Doc, dLookup (projDoc fs d) "_id" = dLookup d "_id") := by
  have hfsE : fs.isEmpty = false := by
    cases fs with
    | nil => exact absurd rfl hfs
    | cons a t => rfl
  refine ⟨?_, projDoc_lookup_id fs⟩
  intro d hd e he
  have hshape : ∃ d0, d = serializeDoc (projDoc fs d0) := by
    unfold list_documents_optimized at hr
    cases use_cursor with
    | true =>
      simp only [eq_self_iff_true, if_true] at hr
      obtain ⟨cres, hcres, hr⟩ := exBind_ok_inv hr
      have hq := Except.ok.inj hr
      subst hq
      simp only [ListResult.documents, hfsE, Bool.false_eq_true, if_false] at hd
      obtain ⟨d1, hd1, hds⟩ := List.mem_map.mp hd
      obtain ⟨d0, hd0, hdp⟩ := List.mem_map.mp hd1
      exact ⟨d0, by rw [← hds, ← hdp]⟩
    | false =>
      simp only [Bool.false_eq_true, if_false] at hr
      have hq := Except.ok.inj hr
      subst hq
      simp only [ListResult.documents, hfsE, Bool.false_eq_true, if_false] at hd
      obtain ⟨d1, hd1, hds⟩ := List.mem_map.mp hd
      have hd2 := List.mem_of_mem_drop (List.mem_of_mem_take hd1)
      have hd3 := mem_sortOpt _ hd2
      obtain ⟨d0, hd0, hdp⟩ := List.mem_map.mp hd3
      exact ⟨d0, by rw [← hds, ← hdp]⟩
  obtain ⟨d0, hd0⟩ := hshape
  subst hd0
  have hkey := mem_serEntries_key he
  exact projDoc_key_mem hkey

/-- Concrete instance of the projection property. -/
theorem C10_projection_only_requested_fields_witness :
    (∀ d ∈ (ListResult.offsetMode (OffsetResult.mk
        [[("_id", Value.vstr "cccccccccccccccccccccccc"), ("x", Value.vint 1)]] 1 0 10)).documents,
      ∀ e ∈ d, e.1 ∈ ["x"] ∨ e.1 = "_id") ∧
    (∀ d : Doc, dLookup (projDoc ["x"] d) "_id" = dLookup d "_id") :=
  C10_projection_only_requested_fields
    [[("_id", Value.oid "cccccccccccccccccccccccc"), ("x", Value.vint 1), ("y", Value.vint 2)]]
    0 10 none none "asc" none false ["x"] [] ""
    (ListResult.offsetMode (OffsetResult.mk
        [[("_id", Value.vstr "cccccccccccccccccccccccc"), ("x", Value.vint 1)]] 1 0 10))
    (by simp) (by rfl)

/-- The sort-value conversion preserves the Python string form. -/
theorem pyStr_cursor_sort_value (v : Value) : pyStr (cursor_sort_value v) = pyStr v := by
  cases v with
  | vnull => rfl
  | vbool b => rfl
  | vint n => rfl
  | vstr s => rfl
  | oid s => rfl
  | vlist xs =>
    simp only [cursor_sort_value]
    by_cases h : jsonSerializable (.vlist xs) = true
    · rw [if_pos h]
    · rw [if_neg h]
      rfl
  | vdict es =>
    simp only [cursor_sort_value]
    by_cases h : jsonSerializable (.vdict es) = true
    · rw [if_pos h]
    · rw [if_neg h]
      rfl

/-- C8: decoding the token encoded from a cursor record yields that
record back, and its `_id` and sort-field slots are string-equal to
the string forms of the source document's `_id` and sort-field
values. -/
theorem C8_cursor_round_trip (last_doc : Doc) (sf : String) (idv : Value)
    (cdata : Doc) (tok : String)
    (hid : dLookup last_doc "_id" = some idv)
    (hrec : cursor_record last_doc sf = .ok cdata)
    (htok : encode_cursor_token cdata = .ok tok) :
    parseCursor tok = some (.vdict cdata) ∧
    pyStr (dGetD cdata "_id") = pyStr idv ∧
    pyStr (dGetD cdata sf) = pyStr (dGetD last_doc sf) := by
  unfold cursor_record at hrec
  rw [hid] at hrec
  have hcd := Except.ok.inj hrec
  unfold encode_cursor_token jsonDumps at htok
  by_cases hser : jsonSerializable (.vdict cdata) = true
  · rw [if_pos hser] at htok
    dsimp only [] at htok
    have htk := Except.ok.inj htok
    subst htk
    refine ⟨parseCursor_encodeToken (.vdict cdata) hser, ?_, ?_⟩
    · by_cases hsf : (sf == "_id") = true
      · rw [if_pos hsf] at hcd
        rw [← hcd]
        show pyStr (cursor_sort_value (dGetD last_doc sf)) = pyStr idv
        rw [pyStr_cursor_sort_value]
        have hsfe : sf = "_id" := eq_of_beq hsf
        subst hsfe
        unfold dGetD
        rw [hid]
        rfl
      · rw [if_neg hsf] at hcd
        rw [← hcd]
        rfl
    · by_cases hsf : (sf == "_id") = true
      · rw [if_pos hsf] at hcd
        rw [← hcd]
        have hsfe : sf = "_id" := eq_of_beq hsf
        subst hsfe
        show pyStr (cursor_sort_value (dGetD last_doc "_id")) = pyStr (dGetD last_doc "_id")
        rw [pyStr_cursor_sort_value]
      · rw [if_neg hsf] at hcd
        rw [← hcd]
        have hid_sf : ("_id" == sf) = false := by
          rw [Bool.eq_false_iff]
          intro hx
          exact hsf (by rw [beq_iff_eq] at hx ⊢; exact hx.symm)
        simp only [dGetD, dLookup, hid_sf, Bool.false_eq_true, if_false,
          beq_self_eq_true, if_true]
        show pyStr (cursor_sort_value (dGetD last_doc sf)) = pyStr (dGetD last_doc sf)
        rw [pyStr_cursor_sort_value]
  · rw [if_neg hser] at htok
    dsimp only [] at htok
    exact Except.noConfusion htok

/-- Concrete instance of the cursor round trip on a two-field record. -/
theorem C8_cursor_round_trip_witness :
    parseCursor "eyJfaWQiOiAiYWFhYWFhYWFhYWFhYWFhYWFhYWFhYWFhIiwgInNjb3JlIjogNX0="
        = some (.vdict [("_id", .vstr "aaaaaaaaaaaaaaaaaaaaaaaa"), ("score", .vint 5)]) ∧
    pyStr (dGetD [("_id", Value.vstr "aaaaaaaaaaaaaaaaaaaaaaaa"), ("score", Value.vint 5)] "_id")
        = pyStr (Value.oid "aaaaaaaaaaaaaaaaaaaaaaaa") ∧
    pyStr (dGetD [("_id", Value.vstr "aaaaaaaaaaaaaaaaaaaaaaaa"), ("score", Value.vint 5)] "score")
        = pyStr (dGetD [("_id", Value.oid "aaaaaaaaaaaaaaaaaaaaaaaa"), ("score", Value.vint 5)] "score") :=
  C8_cursor_round_trip
    [("_id", Value.oid "aaaaaaaaaaaaaaaaaaaaaaaa"), ("score", Value.vint 5)] "score"
    (Value.oid "aaaaaaaaaaaaaaaaaaaaaaaa")
    [("_id", Value.vstr "aaaaaaaaaaaaaaaaaaaaaaaa"), ("score", Value.vint 5)]
    "eyJfaWQiOiAiYWFhYWFhYWFhYWFhYWFhYWFhYWFhYWFhIiwgInNjb3JlIjogNX0="
    (by rfl) (by rfl) (by rfl)

/-- Inserting is a permutation of consing. -/
theorem insertOrd_perm {α : Type} (le : α → α → Bool) (x : α) :
    ∀ l : List α, (insertOrd le x l).Perm (x :: l)
  | [] => List.Perm.refl _
  | y :: ys => by
    simp only [insertOrd]
    by_cases h : le x y = true
    · rw [if_pos h]
    · rw [if_neg h]
      exact ((insertOrd_perm le x ys).cons y).trans (List.Perm.swap x y ys)

/-- Sorting is a permutation. -/
theorem sortSt_perm {α : Type} (le : α → α → Bool) :
    ∀ l : List α, (sortSt le l).Perm l
  | [] => List.Perm.refl _
  | x :: xs => (insertOrd_perm le x (sortSt le xs)).trans ((sortSt_perm le xs).cons x)

/-- Inserting into a locally sorted list keeps it locally sorted, as
long as the new element compares against every member. -/
theorem chain'_insertOrd {α : Type} (le : α → α → Bool) (x : α) :
    ∀ l : List α, List.Chain' (fun a b => le a b = true) l →
      (∀ y ∈ l, le x y = true ∨ le y x = true) →
      List.Chain' (fun a b => le a b = true) (insertOrd le x l)
  | [], _, _ => List.chain'_singleton x
  | y :: ys, hch, htot => by
    simp only [insertOrd]
    by_cases h : le x y = true
    · rw [if_pos h]
      exact List.Chain'.cons h hch
    · rw [if_neg h]
      have hyx : le y x = true := by
        rcases htot y (List.mem_cons_self y ys) with hc | hc
        · exact absurd hc h
        · exact hc
      have hrec := chain'_insertOrd le x ys hch.tail
        (fun z hz => htot z (List.mem_cons_of_mem y hz))
      cases ys with
      | nil => exact List.Chain'.cons hyx (List.chain'_singleton x)
      | cons z zs =>
        simp only [insertOrd] at hrec ⊢
        by_cases h2 : le x z = true
        · rw [if_pos h2] at hrec ⊢
          exact List.Chain'.cons hyx hrec
        · rw [if_neg h2] at hrec ⊢
          exact List.Chain'.cons (List.chain'_cons.mp hch).1 hrec

/-- The insertion sort is locally sorted for a total comparison. -/
theorem sortSt_chain' {α : Type} (le : α → α → Bool) :
    ∀ l : List α, (∀ a ∈ l, ∀ b ∈ l, le a b = true ∨ le b a = true) →
      List.Chain' (fun a b => le a b = true) (sortSt le l)
  | [], _ => List.chain'_nil
  | x :: xs, htot => by
    simp only [sortSt]
    apply chain'_insertOrd le x (sortSt le xs)
    · exact sortSt_chain' le xs (fun a ha b hb =>
        htot a (List.mem_cons_of_mem x ha) b (List.mem_cons_of_mem x hb))
    · intro y hy
      have hyx := (mem_sortSt le xs y).mp hy
      exact htot x (List.mem_cons_self x xs) y (List.mem_cons_of_mem x hyx)

/-- Two lists sorted by an asymmetric relation and equal as multisets
are equal as lists. -/
theorem perm_pairwise_asymm_eq {α : Type} (R : α → α → Prop)
    (hasymm : ∀ a b, R a b → R b a → False) :
    ∀ l1 l2 : List α, l1.Perm l2 → l1.Pairwise R → l2.Pairwise R → l1 = l2
  | [], l2, hp, _, _ => (hp.symm.eq_nil).symm
  | a :: t1, l2, hp, h1, h2 => by
    cases l2 with
    | nil => exact absurd hp.eq_nil (by simp)
    | cons b t2 =>
      by_cases hab : a = b
      · subst hab
        have hrec := perm_pairwise_asymm_eq R hasymm t1 t2 hp.cons_inv
          (List.pairwise_cons.mp h1).2 (List.pairwise_cons.mp h2).2
        rw [hrec]
      · have hat2 : a ∈ t2 := by
          have := hp.mem_iff.mp (List.mem_cons_self a t1)
          rcases List.mem_cons.mp this with h | h
          · exact absurd h hab
          · exact h
        have hbt1 : b ∈ t1 := by
          have := hp.symm.mem_iff.mp (List.mem_cons_self b t2)
          rcases List.mem_cons.mp this with h | h
          · exact absurd h.symm hab
          · exact h
        have hRab := (List.pairwise_cons.mp h1).1 b hbt1
        have hRba := (List.pairwise_cons.mp h2).1 a hat2
        exact absurd hRba (fun hx => hasymm a b hRab hx)

/-- Splitting a conjunction filter into two filters. -/
theorem filter_and_eq {α : Type} (p q : α → Bool) :
    ∀ l : List α, l.filter (fun a => p a && q a) = (l.filter p).filter q
  | [] => rfl
  | a :: t => by
    simp only [List.filter_cons]
    by_cases hp : p a = true
    · rw [hp]
      by_cases hq : q a = true
      · rw [hq]
        simp only [Bool.true_and, if_true, List.filter_cons, hq, if_true,
          filter_and_eq p q t]
      · rw [Bool.not_eq_true] at hq
        rw [hq]
        simp only [Bool.true_and, Bool.false_eq_true, if_false, List.filter_cons, hq,
          filter_and_eq p q t, if_true]
    · rw [Bool.not_eq_true] at hp
      rw [hp]
      simp only [Bool.false_and, Bool.false_eq_true, if_false, filter_and_eq p q t]

/-- Matching a concatenated filter is the conjunction of the matches. -/
theorem matchesQ_append : ∀ (q1 q2 : List (String × Value)) (d : Doc),
    matchesQ (q1 ++ q2) d = (matchesQ q1 d && matchesQ q2 d)
  | [], q2, d => by simp only [List.nil_append, matchesQ, Bool.true_and]
  | (k, c) :: rest, q2, d => by
    simp only [List.cons_append, matchesQ, Bool.and_assoc]
    congr 1
    exact matchesQ_append rest q2 d

/-- Setting an absent key appends the binding. -/
theorem dSet_append {d : Doc} {k : String} (v : Value)
    (h : ∀ e ∈ d, (e.1 == k) = false) : dSet d k v = d ++ [(k, v)] := by
  unfold dSet
  rw [if_neg ?_]
  rw [Bool.not_eq_true, List.any_eq_false]
  intro e he
  rw [h e he]
  exact Bool.false_ne_true

/-- A one-field query matches through `matchCond` when the key is not
an operator. -/
theorem matchesQ_single_field {k : String} (c : Value) (d : Doc)
    (hk1 : (k == "$or") = false) (hk2 : startsDollar k = false) :
    matchesQ [(k, c)] d = matchCond (dGetD d k) c := by
  show ((if (k == "$or") = true then matchOr c d
         else if startsDollar k = true then false
         else matchCond (dGetD d k) c) && matchesQ [] d) = matchCond (dGetD d k) c
  rw [if_neg (by rw [hk1]; exact Bool.false_ne_true),
      if_neg (by rw [hk2]; exact Bool.false_ne_true)]
  exact Bool.and_true _

/-- A two-field query is the conjunction of the two conditions. -/
theorem matchesQ_pair_field {k1 k2 : String} (c1 c2 : Value) (d : Doc)
    (h11 : (k1 == "$or") = false) (h12 : startsDollar k1 = false)
    (h21 : (k2 == "$or") = false) (h22 : startsDollar k2 = false) :
    matchesQ [(k1, c1), (k2, c2)] d
      = (matchCond (dGetD d k1) c1 && matchCond (dGetD d k2) c2) := by
  show ((if (k1 == "$or") = true then matchOr c1 d
         else if startsDollar k1 = true then false
         else matchCond (dGetD d k1) c1) && matchesQ [(k2, c2)] d) = _
  rw [matchesQ_single_field c2 d h21 h22,
      if_neg (by rw [h11]; exact Bool.false_ne_true),
      if_neg (by rw [h12]; exact Bool.false_ne_true)]

/-- The `$gt` operator document on integers is a strict comparison. -/
theorem matchCond_gt_int (x n : Int) :
    matchCond (.vint x) (.vdict [("$gt", .vint n)]) = decide (n < x) := by
  have h : matchCond (.vint x) (.vdict [("$gt", .vint n)])
      = ((true && (vCmp (.vint x) (.vint n) == .gt)) && true) := rfl
  rw [h]
  simp only [Bool.and_true, Bool.true_and]
  show (compare x n == .gt) = decide (n < x)
  by_cases hlt : n < x
  · rw [compare_gt_iff_gt.mpr hlt, decide_eq_true hlt]
    rfl
  · rw [decide_eq_false hlt]
    have hne : compare x n ≠ .gt := by rw [Ne, compare_gt_iff_gt]; omega
    cases hc : compare x n with
    | lt => rfl
    | eq => rfl
    | gt => exact absurd hc hne

/-- An integer literal condition is an equality test. -/
theorem matchCond_eq_int (x n : Int) :
    matchCond (.vint x) (.vint n) = decide (x = n) := by
  show (x == n) = decide (x = n)
  by_cases h : x = n
  · rw [decide_eq_true h, beq_iff_eq.mpr h]
  · rw [decide_eq_false h, beq_eq_false_iff_ne.mpr h]

/-- The `$gt` operator document on identifiers compares their
character sequences. -/
theorem matchCond_gt_oid (a b : String) :
    matchCond (.oid a) (.vdict [("$gt", .oid b)])
      = (compare a.data b.data == .gt) := by
  have h : matchCond (.oid a) (.vdict [("$gt", .oid b)])
      = ((true && (vCmp (.oid a) (.oid b) == .gt)) && true) := rfl
  rw [h]
  simp only [Bool.and_true, Bool.true_and]
  rfl

/-- The `$or` disjunction that the cursor builds evaluates, on a
document with an integer sort value and an ObjectId identifier, to
`sort value above threshold, or tied with a strictly larger id`. -/
theorem matchOr_cursor {sf : String} (hsfd : startsDollar sf = false)
    {d : Doc} {x n : Int} {did lid : String}
    (hk : dGetD d sf = .vint x)
    (hid : dGetD d "_id" = .oid did) :
    matchOr (.vlist [
      .vdict [(sf, .vdict [("$gt", .vint n)])],
      .vdict [(sf, .vint n), ("_id", .vdict [("$gt", .oid lid)])]]) d
    = (decide (n < x) || (decide (x = n) && (compare did.data lid.data == .gt))) := by
  have hsfor : (sf == "$or") = false := by
    rw [Bool.eq_false_iff]
    intro hx
    have hse : sf = "$or" := eq_of_beq hx
    rw [hse] at hsfd
    exact Bool.noConfusion hsfd
  show (matchesQ [(sf, .vdict [("$gt", .vint n)])] d
        || (matchesQ [(sf, .vint n), ("_id", .vdict [("$gt", .oid lid)])] d || false)) = _
  rw [matchesQ_single_field _ d hsfor hsfd,
      matchesQ_pair_field _ _ d hsfor hsfd (by rfl) (by rfl),
      hk, hid, matchCond_gt_int, matchCond_eq_int, matchCond_gt_oid, Bool.or_false]

/-- On documents with integer sort values the ascending document order
is the integer order. -/
theorem docLe_vint {sf : String} {a b : Doc} {x y : Int}
    (hx : dGetD a sf = .vint x) (hy : dGetD b sf = .vint y) :
    docLe sf 1 a b = decide (x ≤ y) := by
  unfold docLe
  rw [if_pos (by rfl), hx, hy]
  show (compare x y != .gt) = decide (x ≤ y)
  by_cases h : x ≤ y
  · rw [decide_eq_true h]
    have hne : compare x y ≠ .gt := by rw [Ne, compare_gt_iff_gt]; omega
    cases hc : compare x y with
    | lt => rfl
    | eq => rfl
    | gt => exact absurd hc hne
  · rw [decide_eq_false h, compare_gt_iff_gt.mpr (by omega)]
    rfl

/-- Down a locally sorted run of integer-keyed documents, the head key
bounds every later key. -/
theorem chain_key_le {sf : String} {key : Doc → Int} :
    ∀ (a : Doc) (t : List Doc),
      (∀ d ∈ a :: t, dGetD d sf = .vint (key d)) →
      List.Chain' (fun u v => docLe sf 1 u v = true) (a :: t) →
      ∀ b ∈ t, key a ≤ key b
  | _, [], _, _ => by intro b hb; exact absurd hb (List.not_mem_nil b)
  | a, b :: t', hk, hch => by
    intro c hc
    have hab : key a ≤ key b := by
      have hrel := (List.chain'_cons.mp hch).1
      rw [docLe_vint (hk a (List.mem_cons_self a _))
            (hk b (List.mem_cons_of_mem a (List.mem_cons_self b t')))] at hrel
      exact of_decide_eq_true hrel
    rcases List.mem_cons.mp hc with rfl | hc'
    · exact hab
    · have hbc := chain_key_le b t'
        (fun d hd => hk d (List.mem_cons_of_mem a hd))
        (List.chain'_cons.mp hch).2 c hc'
      omega

/-- A locally sorted list of integer-keyed documents is globally
sorted on the keys. -/
theorem chain'_le_pairwise {sf : String} {key : Doc → Int} :
    ∀ S : List Doc,
      (∀ d ∈ S, dGetD d sf = .vint (key d)) →
      List.Chain' (fun u v => docLe sf 1 u v = true) S →
      S.Pairwise (fun a b => key a ≤ key b)
  | [], _, _ => List.Pairwise.nil
  | a :: t, hk, hch => by
    refine List.Pairwise.cons (chain_key_le a t hk hch) ?_
    exact chain'_le_pairwise t (fun d hd => hk d (List.mem_cons_of_mem a hd)) hch.tail

/-- In a strictly key-sorted list, filtering for keys above the key at
index `i` is dropping the first `i + 1` entries. -/
theorem filter_gt_eq_drop {key : Doc → Int} :
    ∀ (S : List Doc), S.Pairwise (fun a b => key a < key b) →
      ∀ (i : Nat) (hi : i < S.length),
        S.filter (fun d => decide (key (S.get ⟨i, hi⟩) < key d)) = S.drop (i + 1)
  | [], _, i, hi => absurd hi (by simp)
  | x :: t, hp, 0, hi => by
    simp only [List.get, List.filter_cons]
    rw [if_neg (by rw [decide_eq_false (lt_irrefl (key x))]; exact Bool.false_ne_true)]
    rw [List.filter_eq_self.mpr]
    · rfl
    · intro b hb
      exact decide_eq_true ((List.pairwise_cons.mp hp).1 b hb)
  | x :: t, hp, i + 1, hi => by
    simp only [List.get, List.filter_cons]
    have hpm : List.get t ⟨i, Nat.lt_of_succ_lt_succ hi⟩ ∈ t := List.get_mem t i _
    have hxp : key x < key (List.get t ⟨i, Nat.lt_of_succ_lt_succ hi⟩) :=
      (List.pairwise_cons.mp hp).1 _ hpm
    rw [if_neg (by rw [decide_eq_false (by omega)]; exact Bool.false_ne_true)]
    exact filter_gt_eq_drop t (List.pairwise_cons.mp hp).2 i (Nat.lt_of_succ_lt_succ hi)

/-- A one-entry `$or` query is the disjunction itself. -/
theorem matchesQ_or_single (v : Value) (d : Doc) :
    matchesQ [("$or", v)] d = matchOr v d := by
  show ((if ("$or" == "$or") = true then matchOr v d
         else if startsDollar "$or" = true then false
         else matchCond (dGetD d "$or") v) && matchesQ [] d) = matchOr v d
  rw [if_pos (by rfl)]
  exact Bool.and_true _

/-- Augmenting the filter with the cursor disjunction restricts the
matches to the documents whose sort value lies strictly above the last
returned one: with pairwise-distinct sort values the tie branch only
ever applies to the last document itself, which fails its own strict
identifier comparison. -/
theorem filter_cursor_query (coll : List Doc) (query : List (String × Value))
    (sf : String) (hsfd : startsDollar sf = false)
    (key : Doc → Int) (ids : Doc → String)
    (hk : ∀ d ∈ coll, matchesQ query d = true → dGetD d sf = .vint (key d))
    (hid : ∀ d ∈ coll, dLookup d "_id" = some (.oid (ids d)))
    (hqor : ∀ e ∈ query, e.1 ≠ "$or")
    (ld : Doc) (hldm : ld ∈ coll.filter (matchesQ query))
    (hdist : (coll.filter (matchesQ query)).Pairwise (fun a b => key a ≠ key b)) :
    coll.filter (matchesQ (dSet query "$or" (.vlist [
        .vdict [(sf, .vdict [("$gt", .vint (key ld))])],
        .vdict [(sf, .vint (key ld)), ("_id", .vdict [("$gt", .oid (ids ld))])]])))
      = (coll.filter (matchesQ query)).filter (fun d => decide (key ld < key d)) := by
  rw [dSet_append _ (fun e he => beq_eq_false_iff_ne.mpr (hqor e he))]
  rw [← filter_and_eq]
  apply List.filter_congr
  intro d hdc
  rw [matchesQ_append, matchesQ_or_single]
  by_cases hm : matchesQ query d = true
  · rw [hm, Bool.true_and, Bool.true_and]
    have hdm : d ∈ coll.filter (matchesQ query) := List.mem_filter.mpr ⟨hdc, hm⟩
    have hgid : dGetD d "_id" = .oid (ids d) := by
      unfold dGetD
      rw [hid d hdc]
      rfl
    rw [matchOr_cursor hsfd (hk d hdc hm) hgid]
    by_cases hdl : d = ld
    · subst hdl
      rw [decide_eq_false (lt_irrefl (key d)), decide_eq_true (rfl : key d = key d),
          compare_eq_iff_eq.mpr (rfl : (ids d).data = (ids d).data)]
      rfl
    · have hsymm : Symmetric (fun a b : Doc => key a ≠ key b) :=
        fun _ _ hxy he => hxy he.symm
      have hne : key d ≠ key ld :=
        List.Pairwise.forall hsymm hdist hdm hldm hdl
      rw [decide_eq_false hne, Bool.false_and, Bool.or_false]
  · rw [Bool.not_eq_true] at hm
    rw [hm, Bool.false_and, Bool.false_and]

/-- One cursor step: the `$or` cursor filter built from the document at
index `i` of the sorted result selects exactly the sorted result
beyond index `i`, still in sort order. -/
theorem findSorted_cursor_drop (coll : List Doc) (query : List (String × Value))
    (sf : String) (hsfd : startsDollar sf = false)
    (key : Doc → Int) (ids : Doc → String)
    (hk : ∀ d ∈ coll, matchesQ query d = true → dGetD d sf = .vint (key d))
    (hid : ∀ d ∈ coll, dLookup d "_id" = some (.oid (ids d)))
    (hqor : ∀ e ∈ query, e.1 ≠ "$or")
    (hdist : (coll.filter (matchesQ query)).Pairwise (fun a b => key a ≠ key b))
    (i : Nat) (hi : i < (findSorted coll query sf 1).length) :
    findSorted coll (dSet query "$or" (.vlist [
        .vdict [(sf, .vdict [("$gt", .vint (key ((findSorted coll query sf 1).get ⟨i, hi⟩)))])],
        .vdict [(sf, .vint (key ((findSorted coll query sf 1).get ⟨i, hi⟩))),
                ("_id", .vdict [("$gt",
                  .oid (ids ((findSorted coll query sf 1).get ⟨i, hi⟩)))])]])) sf 1
      = (findSorted coll query sf 1).drop (i + 1) := by
  have hSperm : (findSorted coll query sf 1).Perm (coll.filter (matchesQ query)) :=
    sortSt_perm _ _
  have hmemS : ∀ d ∈ findSorted coll query sf 1, d ∈ coll.filter (matchesQ query) :=
    fun d hd => hSperm.mem_iff.mp hd
  have hkeyM : ∀ d ∈ coll.filter (matchesQ query), dGetD d sf = .vint (key d) := by
    intro d hd
    have h2 := List.mem_filter.mp hd
    exact hk d h2.1 h2.2
  have htot : ∀ a ∈ coll.filter (matchesQ query), ∀ b ∈ coll.filter (matchesQ query),
      docLe sf 1 a b = true ∨ docLe sf 1 b a = true := by
    intro a ha b hb
    rw [docLe_vint (hkeyM a ha) (hkeyM b hb), docLe_vint (hkeyM b hb) (hkeyM a ha)]
    by_cases h : key a ≤ key b
    · exact Or.inl (decide_eq_true h)
    · exact Or.inr (decide_eq_true (by omega))
  have hchain : List.Chain' (fun a b => docLe sf 1 a b = true) (findSorted coll query sf 1) :=
    sortSt_chain' (docLe sf 1) (coll.filter (matchesQ query)) htot
  have hkeyS : ∀ d ∈ findSorted coll query sf 1, dGetD d sf = .vint (key d) :=
    fun d hd => hkeyM d (hmemS d hd)
  have hple : (findSorted coll query sf 1).Pairwise (fun a b => key a ≤ key b) :=
    chain'_le_pairwise _ hkeyS hchain
  have hsymm : Symmetric (fun a b : Doc => key a ≠ key b) := fun _ _ hxy he => hxy he.symm
  have hdistS : (findSorted coll query sf 1).Pairwise (fun a b => key a ≠ key b) :=
    (hSperm.pairwise_iff (fun h => hsymm h)).mpr hdist
  have hplt : (findSorted coll query sf 1).Pairwise (fun a b => key a < key b) :=
    (hple.and hdistS).imp (fun hab => lt_of_le_of_ne hab.1 hab.2)
  have hldm : (findSorted coll query sf 1).get ⟨i, hi⟩ ∈ coll.filter (matchesQ query) :=
    hmemS _ (List.get_mem _ i _)
  show sortSt (docLe sf 1) (coll.filter (matchesQ (dSet query "$or" _)))
      = (findSorted coll query sf 1).drop (i + 1)
  rw [filter_cursor_query coll query sf hsfd key ids hk hid hqor _ hldm hdist]
  have hBperm : (sortSt (docLe sf 1) ((coll.filter (matchesQ query)).filter
        (fun d => decide (key ((findSorted coll query sf 1).get ⟨i, hi⟩) < key d)))).Perm
      ((findSorted coll query sf 1).filter
        (fun d => decide (key ((findSorted coll query sf 1).get ⟨i, hi⟩) < key d))) :=
    (sortSt_perm _ _).trans (hSperm.symm.filter _)
  have hmemF : ∀ d ∈ (coll.filter (matchesQ query)).filter
      (fun d => decide (key ((findSorted coll query sf 1).get ⟨i, hi⟩) < key d)),
      d ∈ coll.filter (matchesQ query) :=
    fun d hd => List.mem_of_mem_filter hd
  have hchainF := sortSt_chain' (docLe sf 1) ((coll.filter (matchesQ query)).filter
      (fun d => decide (key ((findSorted coll query sf 1).get ⟨i, hi⟩) < key d)))
    (fun a ha b hb => htot a (hmemF a ha) b (hmemF b hb))
  have hpermF : (sortSt (docLe sf 1) ((coll.filter (matchesQ query)).filter
      (fun d => decide (key ((findSorted coll query sf 1).get ⟨i, hi⟩) < key d)))).Perm
      ((coll.filter (matchesQ query)).filter
      (fun d => decide (key ((findSorted coll query sf 1).get ⟨i, hi⟩) < key d))) :=
    sortSt_perm _ _
  have hkeyF : ∀ d ∈ sortSt (docLe sf 1) ((coll.filter (matchesQ query)).filter
      (fun d => decide (key ((findSorted coll query sf 1).get ⟨i, hi⟩) < key d))),
      dGetD d sf = .vint (key d) :=
    fun d hd => hkeyM d (hmemF d (hpermF.mem_iff.mp hd))
  have hpleF := chain'_le_pairwise _ hkeyF hchainF
  have hdistF : ((coll.filter (matchesQ query)).filter
      (fun d => decide (key ((findSorted coll query sf 1).get ⟨i, hi⟩) < key d))).Pairwise
      (fun a b => key a ≠ key b) :=
    hdist.sublist (List.filter_sublist _)
  have hdistSF := (hpermF.pairwise_iff (fun h => hsymm h)).mpr hdistF
  have hpltF := (hpleF.and hdistSF).imp
    (fun hab => lt_of_le_of_ne hab.1 hab.2)
  have hpltS2 : ((findSorted coll query sf 1).filter
      (fun d => decide (key ((findSorted coll query sf 1).get ⟨i, hi⟩) < key d))).Pairwise
      (fun a b => key a < key b) :=
    hplt.sublist (List.filter_sublist _)
  have heq := perm_pairwise_asymm_eq (fun a b => key a < key b)
    (fun a b h1 h2 => absurd h1 (by omega)) _ _ hBperm hpltF hpltS2
  rw [heq]
  exact filter_gt_eq_drop (findSorted coll query sf 1) hplt i hi

/-- Evaluation of `cursor_record` on a document with an ObjectId
identifier and an integer sort value under a non-`_id` sort field. -/
theorem cursor_record_eval {ld : Doc} {sf : String} {lid : String} {n : Int}
    (hldid : dLookup ld "_id" = some (.oid lid))
    (hsf : (sf == "_id") = false)
    (hldk : dGetD ld sf = .vint n) :
    cursor_record ld sf = .ok [("_id", .vstr lid), (sf, .vint n)] := by
  unfold cursor_record
  rw [hldid]
  dsimp only []
  rw [if_neg (by rw [hsf]; exact Bool.false_ne_true), hldk]
  rfl

/-- Token building succeeds on a string-and-integer record. -/
theorem encode_cursor_token_pair (lid : String) (sf : String) (n : Int) :
    encode_cursor_token [("_id", .vstr lid), (sf, .vint n)]
      = .ok (encodeToken (dumpsV (.vdict [("_id", .vstr lid), (sf, .vint n)]))) := rfl

/-- A token that parses is not empty, so the falsiness guard keeps it. -/
theorem decodedCursor_tok {tok : String} {v : Value} (h : parseCursor tok = some v) :
    decodedCursor (some tok) = some v := by
  unfold decodedCursor
  by_cases he : (tok == "") = true
  · have he2 : tok = "" := eq_of_beq he
    subst he2
    rw [show parseCursor "" = none from rfl] at h
    exact Option.noConfusion h
  · rw [Bool.not_eq_true] at he
    dsimp only []
    rw [he]
    simp only [Bool.false_eq_true, if_false]
    exact h

/-- Evaluation of the query augmentation on a decoded two-field cursor
record with a canonical 24-hex lowercase identifier, ascending sort on
a non-`_id` field. -/
theorem buildMongoQuery_cursor_eval (query : List (String × Value)) (sf : String)
    (fresh : String) (lid : String) (n : Int)
    (hsf : (sf == "_id") = false)
    (hhex : isHex24 lid = true) (hlow : asciiLower lid = lid) :
    buildMongoQuery query (some (.vdict [("_id", .vstr lid), (sf, .vint n)])) sf 1 fresh
      = .ok (dSet query "$or" (.vlist [
          .vdict [(sf, .vdict [("$gt", .vint n)])],
          .vdict [(sf, .vint n), ("_id", .vdict [("$gt", .oid lid)])]])) := by
  have hid_sf : ("_id" == sf) = false := by
    rw [Bool.eq_false_iff]
    intro hx
    have hxe : "_id" = sf := eq_of_beq hx
    rw [← hxe] at hsf
    exact Bool.noConfusion hsf
  have hsv : dGetD [("_id", Value.vstr lid), (sf, Value.vint n)] sf = .vint n := by
    simp only [dGetD, dLookup, hid_sf, Bool.false_eq_true, if_false,
      beq_self_eq_true, if_true]
    rfl
  unfold buildMongoQuery
  dsimp only []
  rw [if_pos (by rfl)]
  rw [if_neg (by rw [hsf]; exact Bool.false_ne_true)]
  rw [hsv]
  rw [show dGetD [("_id", Value.vstr lid), (sf, Value.vint n)] "_id" = .vstr lid from rfl]
  rw [show objectIdOf fresh (.vstr lid) = if isHex24 lid = true then
        .ok (.oid (asciiLower lid)) else .error .invalidId from rfl]
  rw [if_pos hhex, hlow]
  rfl

/-- The loop invariant of repeated cursor pagination: once the current
cursor's augmented query selects exactly the sorted tail from index
`j`, the remaining traversal returns exactly that tail. -/
theorem paginate_all_inv
    (coll : List Doc) (query : List (String × Value)) (sf : String) (fresh : String)
    (limit : Nat) (key : Doc → Int) (ids : Doc → String)
    (hsfd : startsDollar sf = false) (hsf : (sf == "_id") = false)
    (hlim : 1 ≤ limit)
    (hk : ∀ d ∈ coll, matchesQ query d = true → dGetD d sf = .vint (key d))
    (hid : ∀ d ∈ coll, dLookup d "_id" = some (.oid (ids d)))
    (hcanon : ∀ d ∈ coll, isHex24 (ids d) = true ∧ asciiLower (ids d) = ids d)
    (hqor : ∀ e ∈ query, e.1 ≠ "$or")
    (hdist : (coll.filter (matchesQ query)).Pairwise (fun a b => key a ≠ key b)) :
    ∀ (fuel j : Nat) (cur : Option String) (mqc : List (String × Value)),
      (findSorted coll query sf 1).length - j < fuel →
      buildMongoQuery query (decodedCursor cur) sf 1 fresh = .ok mqc →
      findSorted coll mqc sf 1 = (findSorted coll query sf 1).drop j →
      paginate_all fuel coll query cur limit sf 1 fresh
        = .ok ((findSorted coll query sf 1).drop j) := by
  intro fuel
  induction fuel with
  | zero =>
    intro j cur mqc hf hbq hfind
    exact absurd hf (by omega)
  | succ fuel ih =>
    intro j cur mqc hf hbq hfind
    have hpage := gdc_eval coll query cur limit sf 1 fresh mqc hbq
    rw [hfind] at hpage
    by_cases hm : limit < (((findSorted coll query sf 1).drop j).take (limit + 1)).length
    · -- a full page and more matches beyond it
      have hfl : (((findSorted coll query sf 1).drop j).take (limit + 1)).length
          = limit + 1 := by
        rw [List.length_take]
        rw [List.length_take] at hm
        omega
      have hdocs : (((findSorted coll query sf 1).drop j).take (limit + 1)).dropLast
          = ((findSorted coll query sf 1).drop j).take limit := by
        rw [List.dropLast_eq_take, hfl, List.take_take]
        rw [show limit + 1 - 1 = limit from rfl, min_eq_left (by omega)]
      have hdl : (((findSorted coll query sf 1).drop j).take limit).length = limit := by
        rw [List.length_take, List.length_drop]
        rw [List.length_take, List.length_drop] at hm
        omega
      have hne : (((findSorted coll query sf 1).drop j).take limit).isEmpty = false := by
        cases hds : ((findSorted coll query sf 1).drop j).take limit with
        | nil => rw [hds] at hdl; simp at hdl; omega
        | cons a t => rfl
      have hidx : j + (limit - 1) < (findSorted coll query sf 1).length := by
        rw [List.length_take, List.length_drop] at hm
        omega
      have hlast : (((findSorted coll query sf 1).drop j).take limit).getLast?
          = some ((findSorted coll query sf 1).get ⟨j + (limit - 1), hidx⟩) := by
        rw [List.getLast?_eq_getElem?, hdl, List.getElem?_take, if_pos (by omega),
          List.getElem?_drop, List.getElem?_eq_getElem hidx, List.get_eq_getElem]
      have hmemld : (findSorted coll query sf 1).get ⟨j + (limit - 1), hidx⟩
          ∈ coll.filter (matchesQ query) :=
        (sortSt_perm _ _).mem_iff.mp (List.get_mem _ _ _)
      have hmemc := (List.mem_filter.mp hmemld).1
      have hmq := (List.mem_filter.mp hmemld).2
      have hldk := hk _ hmemc hmq
      have hldid := hid _ hmemc
      have hcr := cursor_record_eval hldid hsf hldk
      simp only [hm, decide_True, Bool.true_and, if_true] at hpage
      rw [hdocs, hne] at hpage
      simp only [Bool.not_false, if_true] at hpage
      rw [hlast] at hpage
      try dsimp only [] at hpage
      rw [hcr, exBind_ok] at hpage
      try dsimp only [] at hpage
      rw [encode_cursor_token_pair, exBind_ok] at hpage
      try dsimp only [] at hpage
      have hgdc : get_documents_cursor coll query cur limit sf 1 fresh
          = .ok (Page.mk (((findSorted coll query sf 1).drop j).take limit)
              (some (encodeToken (dumpsV (.vdict
                [("_id", .vstr (ids ((findSorted coll query sf 1).get ⟨j + (limit - 1), hidx⟩))),
                 (sf, .vint (key ((findSorted coll query sf 1).get ⟨j + (limit - 1), hidx⟩)))]))))
              true limit) := hpage
      have hser : jsonSerializable (.vdict
          [("_id", .vstr (ids ((findSorted coll query sf 1).get ⟨j + (limit - 1), hidx⟩))),
           (sf, .vint (key ((findSorted coll query sf 1).get ⟨j + (limit - 1), hidx⟩)))]) = true := rfl
      have hpc := parseCursor_encodeToken _ hser
      have hdc := decodedCursor_tok hpc
      have hbq2 := buildMongoQuery_cursor_eval query sf fresh
        (ids ((findSorted coll query sf 1).get ⟨j + (limit - 1), hidx⟩))
        (key ((findSorted coll query sf 1).get ⟨j + (limit - 1), hidx⟩))
        hsf (hcanon _ hmemc).1 (hcanon _ hmemc).2
      have hbq3 : buildMongoQuery query (decodedCursor (some (encodeToken (dumpsV (.vdict
          [("_id", .vstr (ids ((findSorted coll query sf 1).get ⟨j + (limit - 1), hidx⟩))),
           (sf, .vint (key ((findSorted coll query sf 1).get ⟨j + (limit - 1), hidx⟩)))])))))
          sf 1 fresh
          = .ok (dSet query "$or" (.vlist [
              .vdict [(sf, .vdict [("$gt",
                .vint (key ((findSorted coll query sf 1).get ⟨j + (limit - 1), hidx⟩)))])],
              .vdict [(sf, .vint (key ((findSorted coll query sf 1).get ⟨j + (limit - 1), hidx⟩))),
                      ("_id", .vdict [("$gt",
                        .oid (ids ((findSorted coll query sf 1).get ⟨j + (limit - 1), hidx⟩)))])]])) := by
        rw [hdc]
        exact hbq2
      have hfind2 : findSorted coll (dSet query "$or" (.vlist [
              .vdict [(sf, .vdict [("$gt",
                .vint (key ((findSorted coll query sf 1).get ⟨j + (limit - 1), hidx⟩)))])],
              .vdict [(sf, .vint (key ((findSorted coll query sf 1).get ⟨j + (limit - 1), hidx⟩))),
                      ("_id", .vdict [("$gt",
                        .oid (ids ((findSorted coll query sf 1).get ⟨j + (limit - 1), hidx⟩)))])]])) sf 1
          = (findSorted coll query sf 1).drop (j + limit) := by
        have hdrop := findSorted_cursor_drop coll query sf hsfd key ids hk hid hqor hdist
          (j + (limit - 1)) hidx
        rw [show j + (limit - 1) + 1 = j + limit from by omega] at hdrop
        exact hdrop
      have hm2 : limit < (findSorted coll query sf 1).length - j := by
        rw [List.length_take, List.length_drop] at hm
        omega
      have hrec := ih (j + limit) _ _ (by omega) hbq3 hfind2
      simp only [paginate_all]
      rw [hgdc, exBind_ok]
      try dsimp only []
      rw [hrec, exBind_ok]
      try dsimp only []
      have happ : ((findSorted coll query sf 1).drop j).take limit
          ++ (findSorted coll query sf 1).drop (j + limit)
          = (findSorted coll query sf 1).drop j := by
        have h1 : (findSorted coll query sf 1).drop (j + limit)
            = ((findSorted coll query sf 1).drop j).drop limit :=
          (List.drop_drop limit j _).symm
        rw [h1, List.take_append_drop]
      rw [happ]
      rfl
    · -- the final page
      have hmd : decide
          (limit < (((findSorted coll query sf 1).drop j).take (limit + 1)).length) = false :=
        decide_eq_false hm
      simp only [hmd, Bool.false_eq_true, if_false, Bool.false_and] at hpage
      have htk : ((findSorted coll query sf 1).drop j).take (limit + 1)
          = (findSorted coll query sf 1).drop j := by
        apply List.take_of_length_le
        rw [List.length_take] at hm
        omega
      rw [htk] at hpage
      have hgdc : get_documents_cursor coll query cur limit sf 1 fresh
          = .ok (Page.mk ((findSorted coll query sf 1).drop j) none false limit) := hpage
      simp only [paginate_all]
      rw [hgdc, exBind_ok]
      rfl

/-- C1 (amended): under an ascending sort on a non-operator, non-`_id`
field where the matching documents carry pairwise-distinct integer
sort values and canonical lowercase 24-hex ObjectId identifiers,
repeated cursor pagination concatenates to exactly the sorted match
list: every matching document is visited exactly once and in sort
order, and the traversal needs only finitely many pages.  With
duplicated sort values the tie-break `$or` filter does not line up
with the single-key sort order and documents can be revisited. -/
theorem C1_pagination_visits_each_once
    (coll : List Doc) (query : List (String × Value)) (sf : String) (fresh : String)
    (limit : Nat) (key : Doc → Int) (ids : Doc → String)
    (hsfd : startsDollar sf = false) (hsf : (sf == "_id") = false)
    (hlim : 1 ≤ limit)
    (hk : ∀ d ∈ coll, matchesQ query d = true → dGetD d sf = .vint (key d))
    (hid : ∀ d ∈ coll, dLookup d "_id" = some (.oid (ids d)))
    (hcanon : ∀ d ∈ coll, isHex24 (ids d) = true ∧ asciiLower (ids d) = ids d)
    (hqor : ∀ e ∈ query, e.1 ≠ "$or")
    (hdist : (coll.filter (matchesQ query)).Pairwise (fun a b => key a ≠ key b)) :
    ∃ fuel, paginate_all fuel coll query none limit sf 1 fresh
      = .ok (findSorted coll query sf 1) := by
  refine ⟨(findSorted coll query sf 1).length + 1, ?_⟩
  have h := paginate_all_inv coll query sf fresh limit key ids hsfd hsf hlim
    hk hid hcanon hqor hdist ((findSorted coll query sf 1).length + 1) 0 none query
    (by omega) (by rfl) (by rw [List.drop_zero])
  rw [h, List.drop_zero]

/-- Three documents sharing one sort value, page size two: the second
page returns the first document again (the stable single-key sort
order disagrees with the `$or` tie-break on identifiers), so a
document is visited twice. -/
theorem C1_duplicate_sort_value_revisits :
    get_documents_cursor
      [[("_id", Value.oid "bbbbbbbbbbbbbbbbbbbbbbbb"), ("value", Value.vint 10)],
       [("_id", Value.oid "aaaaaaaaaaaaaaaaaaaaaaaa"), ("value", Value.vint 10)],
       [("_id", Value.oid "cccccccccccccccccccccccc"), ("value", Value.vint 10)]]
      [] none 2 "value" 1 ""
      = .ok (Page.mk
          [[("_id", Value.oid "bbbbbbbbbbbbbbbbbbbbbbbb"), ("value", Value.vint 10)],
           [("_id", Value.oid "aaaaaaaaaaaaaaaaaaaaaaaa"), ("value", Value.vint 10)]]
          (some "eyJfaWQiOiAiYWFhYWFhYWFhYWFhYWFhYWFhYWFhYWFhIiwgInZhbHVlIjogMTB9") true 2) ∧
    get_documents_cursor
      [[("_id", Value.oid "bbbbbbbbbbbbbbbbbbbbbbbb"), ("value", Value.vint 10)],
       [("_id", Value.oid "aaaaaaaaaaaaaaaaaaaaaaaa"), ("value", Value.vint 10)],
       [("_id", Value.oid "cccccccccccccccccccccccc"), ("value", Value.vint 10)]]
      [] (some "eyJfaWQiOiAiYWFhYWFhYWFhYWFhYWFhYWFhYWFhYWFhIiwgInZhbHVlIjogMTB9")
      2 "value" 1 ""
      = .ok (Page.mk
          [[("_id", Value.oid "bbbbbbbbbbbbbbbbbbbbbbbb"), ("value", Value.vint 10)],
           [("_id", Value.oid "cccccccccccccccccccccccc"), ("value", Value.vint 10)]]
          none false 2) :=
  ⟨rfl, rfl⟩

/-- Concrete instance of the amended traversal on a one-document
store. -/
theorem C1_pagination_visits_each_once_witness :
    ∃ fuel, paginate_all fuel
        [[("_id", Value.oid "dddddddddddddddddddddddd"), ("score", Value.vint 3)]]
        [] none 2 "score" 1 ""
      = .ok (findSorted
          [[("_id", Value.oid "dddddddddddddddddddddddd"), ("score", Value.vint 3)]]
          [] "score" 1) :=
  C1_pagination_visits_each_once
    [[("_id", Value.oid "dddddddddddddddddddddddd"), ("score", Value.vint 3)]]
    [] "score" "" 2
    (fun d => match dGetD d "score" with | .vint n => n | _ => 0)
    (fun d => match dGetD d "_id" with | .oid s => s | _ => "")
    (by rfl) (by rfl) (by decide)
    (by intro d hd hq; rw [List.mem_singleton] at hd; subst hd; rfl)
    (by intro d hd; rw [List.mem_singleton] at hd; subst hd; rfl)
    (by intro d hd; rw [List.mem_singleton] at hd; subst hd; exact ⟨by decide, by decide⟩)
    (fun e he => absurd he (List.not_mem_nil e))
    (List.Pairwise.cons (fun b hb => absurd hb (List.not_mem_nil b)) List.Pairwise.nil)
